import Mathlib

/-!
# pcm_file_convert

A shallow embedding of `pcm_file_convert.cpp` (the `parse` routine and the
configuration handling of `main`) together with theorems about the behaviour
described by the specification.

Conventions of the embedding:

* a byte (`unsigned char`) is a `Fin 256`;
* `unsigned int` values are natural numbers reduced modulo `2 ^ 32` after every
  operation that can leave the 32-bit range;
* `int` values are integers kept in the 32-bit range: the conversion
  `(int) unsignedNumber` is `toInt`, and the increment of the record counter
  `itemsWritten` wraps around in two's complement (`wrapInt`);
* the input file is the list of its bytes, the output file is the list of the
  `fwrite` calls made on it, in order.
-/

namespace PcmFileConvert

/-! ## Machine integers -/

/-- One `unsigned char`. -/
abbrev Byte := Fin 256

/-- Reduction of a natural number to the range of a 32-bit `unsigned int`. -/
def wrap32 (n : Nat) : Nat := n % 2 ^ 32

/-- The conversion `(int) unsignedNumber` of a 32-bit unsigned value. -/
def toInt (unsignedNumber : Nat) : Int :=
  if unsignedNumber % 2 ^ 32 < 2 ^ 31 then ((unsignedNumber % 2 ^ 32 : Nat) : Int)
  else ((unsignedNumber % 2 ^ 32 : Nat) : Int) - 2 ^ 32

/-- Reduction of an integer to the range of a 32-bit `int`, in two's complement. -/
def wrapInt (v : Int) : Int := (v + 2 ^ 31) % 2 ^ 32 - 2 ^ 31

/-! ## `sprintf(buf, "%d", ...)` -/

/-- The character of one decimal digit. -/
def digitChar (d : Nat) : Char := Char.ofNat (48 + d)

/-- Decimal digits of `n`, most significant first, pushed in front of `acc`.
The first argument bounds the number of digits produced. -/
def decimalDigits : Nat → Nat → List Char → List Char
  | 0, _, acc => acc
  | fuel + 1, n, acc =>
    if n < 10 then digitChar n :: acc
    else decimalDigits fuel (n / 10) (digitChar (n % 10) :: acc)

/-- The text `sprintf(buf, "%d", v)` leaves in `buf`. -/
def sprintf_d (v : Int) : List Char :=
  if v < 0 then '-' :: decimalDigits (v.natAbs + 1) v.natAbs []
  else decimalDigits (v.natAbs + 1) v.natAbs []

/-! ## `parse` -/

/-- The call `fread(wordArray, wordWidth, 1, pInputFile)`. The result is the
value returned (1 is `true`, 0 is `false`), the buffer and the stream after the
call. With an item size of zero the call returns 0 and changes nothing. When a
whole item of `wordWidth` bytes is available, it overwrites the first
`wordWidth` bytes of the buffer, the stream advances behind it and the call
returns 1. Otherwise the bytes that are left are stored at the front of the
buffer, the stream is at its end and the call returns 0. -/
def fread (wordArray : List Byte) (wordWidth : Nat) (input : List Byte) :
    Bool × List Byte × List Byte :=
  if wordWidth = 0 then (false, wordArray, input)
  else if input.length < wordWidth then (false, input ++ wordArray.drop input.length, [])
  else (true, input.take wordWidth ++ wordArray.drop wordWidth, input.drop wordWidth)

/-- The loop run when `!isLittleEndian` (lines 44-47):
`c = wordArray[x]; wordArray[wordWidth - x - 1] = c;` for `x` from 0 up to
`wordWidth - 1`. -/
def makeLittleEnd (wordArray : List Byte) (wordWidth : Nat) : List Byte :=
  (List.range wordWidth).foldl
    (fun wa x => wa.set (wordWidth - x - 1) (wa.getD x 0)) wordArray

/-- The loop that calculates the number (lines 50-53):
`unsignedNumber += ((unsigned int) wordArray[x]) << (x << 3)`. -/
def calculateNumber (wordArray : List Byte) (wordWidth : Nat) : Nat :=
  (List.range wordWidth).foldl
    (fun unsignedNumber x =>
      wrap32 (unsignedNumber + wrap32 ((wordArray.getD x 0).val <<< (x <<< 3)))) 0

/-- The mask `1 << ((wordWidth << 3) - 1)` of the sign test, as an unsigned value. -/
def signMask (wordWidth : Nat) : Nat := wrap32 (1 <<< ((wordWidth <<< 3) - 1))

/-- The shift amounts of the sign-extension loop:
`for (x = wordWidth << 3; x < sizeof(wordArray) << 3; x++)`. -/
def signLoopRange (wordWidth : Nat) : List Nat :=
  List.range' (wordWidth <<< 3) ((4 <<< 3) - (wordWidth <<< 3))

/-- Dealing with the sign (lines 55-60): when the sign bit of the word is set,
`unsignedNumber |= 1 << x` for every `x` of the sign-extension loop. -/
def signExtend (unsignedNumber wordWidth : Nat) : Nat :=
  if unsignedNumber &&& signMask wordWidth ≠ 0 then
    (signLoopRange wordWidth).foldl (fun u x => u ||| wrap32 (1 <<< x)) unsignedNumber
  else unsignedNumber

/-- The separator written between two records. -/
def separator : List Char := [',', ' ']

/-- The variables of `parse` that live across iterations of its loop. -/
structure ParseState where
  /-- The 4-byte word buffer. -/
  wordArray : List Byte
  /-- The bytes of the input file not yet read. -/
  input : List Byte
  /-- The `fwrite` calls made on the output file so far. -/
  output : List (List Char)
  /-- The counter of records, an `int`. -/
  itemsWritten : Int
deriving DecidableEq, Repr

/-- The body of the `while` loop of `parse`, for a buffer `wordArray` just filled
by `fread` and the rest `input` of the stream. -/
def parseBody (wordWidth : Nat) (isLittleEndian : Bool) (st : ParseState)
    (wordArray input : List Byte) : ParseState :=
  let wordArray := if !isLittleEndian then makeLittleEnd wordArray wordWidth else wordArray
  let unsignedNumber := signExtend (calculateNumber wordArray wordWidth) wordWidth
  let output := if st.itemsWritten > 0 then st.output ++ [separator] else st.output
  let buf := sprintf_d (toInt unsignedNumber)
  { wordArray := wordArray
    input := input
    output := output ++ [buf]
    itemsWritten := wrapInt (st.itemsWritten + 1) }

/-- The `while` loop of `parse`, run for at most `fuel` evaluations of its
condition; `none` when the loop has not ended by then. -/
def parseLoop (wordWidth : Nat) (isLittleEndian : Bool) : Nat → ParseState → Option ParseState
  | 0, _ => none
  | fuel + 1, st =>
    match fread st.wordArray wordWidth st.input with
    | (false, wordArray, input) => some { st with wordArray := wordArray, input := input }
    | (true, wordArray, input) =>
      parseLoop wordWidth isLittleEndian fuel (parseBody wordWidth isLittleEndian st wordArray input)

/-- The function `parse`. `wordArray` is the (indeterminate) initial content of
the word buffer, `input` the content of the input file. The result is the final
state: its `output` is what was written and its `itemsWritten` the value
returned. The loop is given one evaluation of its condition per input byte, and
one more. -/
def parse (wordArray : List Byte) (input : List Byte) (wordWidth : Nat)
    (isLittleEndian : Bool) : Option ParseState :=
  parseLoop wordWidth isLittleEndian (input.length + 1)
    { wordArray := wordArray, input := input, output := [], itemsWritten := 0 }

/-- The text of the output file after the given `fwrite` calls. -/
def fileText (output : List (List Char)) : List Char := output.flatten

/-- The records among the `fwrite` calls: every call but the separators. -/
def records (output : List (List Char)) : List (List Char) :=
  output.filter (fun s => s ≠ separator)

/-- The sample `parse` decodes from a buffer just filled by `fread`. -/
def decodeBuffer (wordArray : List Byte) (wordWidth : Nat) (isLittleEndian : Bool) : Int :=
  toInt (signExtend (calculateNumber
    (if !isLittleEndian then makeLittleEnd wordArray wordWidth else wordArray) wordWidth) wordWidth)

/-! ## `main` -/

/-- The macro `DIR_SEPARATORS`. -/
def DIR_SEPARATORS : List Char := "\\/".toList

/-- The macro `EXT_SEPARATOR`. -/
def EXT_SEPARATOR : List Char := ".".toList

/-- The macro `OUTPUT_FILE_EXTENSION`. -/
def OUTPUT_FILE_EXTENSION : List Char := "csv".toList

/-- A call `strtok(s, delims)` on the characters `s` of a C string: the leading
delimiters are skipped; when nothing is left the call returns NULL (`none`);
otherwise the token runs up to the next delimiter, which is overwritten by the
terminator, and the scan of a later `strtok(NULL, delims)` resumes behind it.
The result is the token and the characters left for later calls. -/
def strtok (s delims : List Char) : Option (List Char × List Char) :=
  let t := s.dropWhile (fun c => delims.contains c)
  if t.isEmpty then none
  else some (t.takeWhile (fun c => !delims.contains c),
    (t.dropWhile (fun c => !delims.contains c)).drop 1)

/-- What the C string at the address `s` reads after `strtok(s, delims)` returned
a token: the skipped delimiters followed by the token, the terminator having
been written behind it. -/
def afterStrtok (s delims : List Char) : List Char :=
  s.takeWhile (fun c => delims.contains c) ++
    (s.dropWhile (fun c => delims.contains c)).takeWhile (fun c => !delims.contains c)

/-- The loop `while (pChar != NULL) { pExeName = pChar; pChar = strtok(NULL, ...); }`
with `s` the characters not scanned yet and `pExeName` the last token so far. -/
def lastToken (delims : List Char) : Nat → List Char → Option (List Char) → Option (List Char)
  | 0, _, pExeName => pExeName
  | fuel + 1, s, pExeName =>
    match strtok s delims with
    | none => pExeName
    | some (pChar, rest) => lastToken delims fuel rest (some pChar)

/-- The exe name found in the first argument (lines 90-102); `none` is NULL. -/
def exeName (argv0 : String) : Option String :=
  match lastToken DIR_SEPARATORS (argv0.length + 1) argv0.toList none with
  | none => none
  | some pExeName =>
    match strtok pExeName EXT_SEPARATOR with
    | none => some (String.mk pExeName)
    | some (pChar, _) => some (String.mk pChar)

/-- The C predicate `isspace` in the default locale. -/
def isspace (c : Char) : Bool :=
  c.toNat = 32 || (9 ≤ c.toNat && c.toNat ≤ 13)

/-- The library function `strtol(s, NULL, 10)` with a 64-bit `long`: leading
white space, an optional sign, then the longest run of decimal digits; a value
outside the range of `long` is replaced by the nearest bound. -/
def strtol (s : String) : Int :=
  let value (ds : List Char) : Int :=
    ((ds.takeWhile Char.isDigit).foldl (fun acc c => 10 * acc + (c.toNat - 48)) 0 : Nat)
  let v : Int :=
    match s.toList.dropWhile isspace with
    | '-' :: ds => - value ds
    | '+' :: ds => value ds
    | ds => value ds
  max (-(2 ^ 63)) (min (2 ^ 63 - 1) v)

/-- The library function `atoi`, which is `(int) strtol(s, NULL, 10)`: the
value is reduced to the range of `int`. -/
def atoi (s : String) : Int := wrapInt (strtol s)

/-- The variables the command line parameters set. -/
structure Args where
  /-- The text `pEndianness` points to. -/
  pEndianness : String
  /-- The word width. -/
  wordWidth : Int
  /-- The text `pOutputFileName` points to, `none` when it is NULL. -/
  pOutputFileName : Option String
deriving DecidableEq, Repr

/-- The values of the variables before the command line is looked at. -/
def defaultArgs : Args := { pEndianness := "l", wordWidth := 4, pOutputFileName := none }

/-- The loop that looks for the command line parameters (lines 106-130), from
`x = 2` on: `argv[1]` is taken as the input file name before. -/
def parseOptions : List String → Args → Args
  | [], a => a
  | opt :: tail, a =>
    if opt = "-e" then
      match tail with
      | [] => a
      | v :: rest => parseOptions rest { a with pEndianness := v }
    else if opt = "-w" then
      match tail with
      | [] => a
      | v :: rest => parseOptions rest { a with wordWidth := atoi v }
    else if opt = "-o" then
      match tail with
      | [] => a
      | v :: rest => parseOptions rest { a with pOutputFileName := some v }
    else parseOptions tail a

/-- The condition of the endianness check (lines 136-138):
`(strlen(pEndianness) != 1) || ((*pEndianness != 'l') && (*pEndianness != 'b'))`. -/
def endiannessRejected (pEndianness : String) : Bool :=
  pEndianness.length != 1 ||
    (pEndianness.toList.headD (Char.ofNat 0) != 'l' &&
      pEndianness.toList.headD (Char.ofNat 0) != 'b')

/-- The condition of the word width check (line 143):
`(wordWidth <= 0) && (wordWidth > 4)`. -/
def wordWidthRejected (wordWidth : Int) : Bool :=
  decide (wordWidth ≤ 0) && decide (wordWidth > 4)

/-- The value of `*pEndianness == 'l'`. -/
def isLittle (pEndianness : String) : Bool :=
  pEndianness.toList.headD (Char.ofNat 0) == 'l'

/-- What `main` prints, one constructor per `printf` (the usage text is one item). -/
inductive Msg where
  | badEndianness (pEndianness : String)
  | badWordWidth (wordWidth : Int)
  | cannotOpenInput (pInputFileName : String)
  | cannotAllocate
  | cannotOpenOutput (pOutputFileName : String)
  | parsingStarting (pInputFileName : String) (little : Bool) (wordWidth : Int)
      (pOutputFileName : String)
  | done (items : Int)
  | usage (pExeName : Option String)
deriving DecidableEq, Repr

/-- How a run ends: `main` returns a value, or the run leaves defined behaviour
(a null pointer handed to `strlen`, `strtok` or `fread`, or a read that overruns
`wordArray`). -/
inductive Exit where
  | returned (retValue : Int)
  | fault
deriving DecidableEq, Repr

/-- What `main` is run in: the files it can open, the allocator, and the
indeterminate initial content of the word buffer of `parse`. -/
structure Env where
  /-- The call `fopen(name, "rb")`: the content of the file when it opens. -/
  openInput : String → Option (List Byte)
  /-- Whether `fopen(name, "w")` succeeds. -/
  openOutput : String → Bool
  /-- Whether `malloc(size)` succeeds. -/
  malloc : Nat → Bool
  /-- The initial content of `wordArray`. -/
  wordArray : List Byte

/-- The observable outcome of a run of `main`. -/
structure MainResult where
  /-- What was printed, in order. -/
  printed : List Msg
  /-- The arguments of the call of `parse` (content of the input file, word
  width, `isLittleEndian`), `none` when `parse` was not called. -/
  parseCall : Option (List Byte × Int × Bool)
  /-- The final state of `parse` when it was called and returned. -/
  parsed : Option ParseState
  /-- The name the output file was opened under, when one was. -/
  outputFile : Option String
  /-- Whether the text built in the allocated output name is longer than the
  allocation. -/
  nameOverrun : Bool
  /-- How the run ended. -/
  exit : Exit
deriving DecidableEq, Repr

/-- Whether the first `fread` of `parse` stores more than the 4 bytes of
`wordArray`: it stores the bytes available, at most the item size, and a
negative `wordWidth` converts to an item size larger than any file. -/
def overrunsWordArray (wordWidth : Int) (length : Nat) : Bool :=
  if wordWidth < 0 then decide (4 < length) else decide (4 < min wordWidth.toNat length)

/-- The output file name `main` makes up when none is given (lines 155-163):
the first token of the input file name, the size allocated from it, and the
text built by `strcpy` and the two `strcat`. `none` when the token is NULL. -/
def deriveOutputName (pInputFileName : String) : Option (Nat × String × String) :=
  match strtok pInputFileName.toList EXT_SEPARATOR with
  | none => none
  | some (pChar, _) =>
    let truncated := afterStrtok pInputFileName.toList EXT_SEPARATOR
    some (pChar.length + OUTPUT_FILE_EXTENSION.length + EXT_SEPARATOR.length + 1,
      String.mk truncated,
      String.mk (truncated ++ EXT_SEPARATOR ++ OUTPUT_FILE_EXTENSION))

/-- The end of `main` (lines 168-203), from the opening of the output file on.
`opened` is the name the input file was opened under, `pInputFileName` what the
input file name reads by now. -/
def openOutputAndRun (env : Env) (pExeName : Option String) (opened pInputFileName : String)
    (a : Args) (pInputFile : Option (List Byte)) (pOutputFileName : Option String)
    (nameOverrun success : Bool) (printed : List Msg) : MainResult :=
  let pOutputFile : Bool :=
    match pOutputFileName with
    | some name => env.openOutput name
    | none => false
  let outputFile := if pOutputFile then pOutputFileName else none
  let failed : Bool := pOutputFileName.isSome && !pOutputFile
  let success := if failed then false else success
  let printed :=
    if failed then printed ++ [Msg.cannotOpenOutput (pOutputFileName.getD "")] else printed
  if success then
    let printed := printed ++ [Msg.parsingStarting pInputFileName (isLittle a.pEndianness)
      a.wordWidth (pOutputFileName.getD "")]
    match pInputFile with
    | none =>
      { printed := printed, parseCall := none, parsed := none, outputFile := outputFile,
        nameOverrun := nameOverrun, exit := Exit.fault }
    | some content =>
      -- opening the output file for writing empties it, also when it is the input file
      let content := if pOutputFileName = some opened then [] else content
      let call := (content, a.wordWidth, isLittle a.pEndianness)
      if overrunsWordArray a.wordWidth content.length then
        { printed := printed, parseCall := some call, parsed := none, outputFile := outputFile,
          nameOverrun := nameOverrun, exit := Exit.fault }
      else
        match parse env.wordArray content a.wordWidth.toNat (isLittle a.pEndianness) with
        | none =>
          { printed := printed, parseCall := some call, parsed := none,
            outputFile := outputFile, nameOverrun := nameOverrun, exit := Exit.fault }
        | some st =>
          { printed := printed ++ [Msg.done st.itemsWritten], parseCall := some call,
            parsed := some st, outputFile := outputFile, nameOverrun := nameOverrun,
            exit := Exit.returned 0 }
  else
    { printed := printed ++ [Msg.usage pExeName], parseCall := none, parsed := none,
      outputFile := outputFile, nameOverrun := nameOverrun, exit := Exit.returned (-1) }

/-- The three checks `main` makes first when it has an input file name (lines
134-152): the endianness, the word width, the opening of the input file. The
result is the flag `success` and what was printed. -/
def configChecks (env : Env) (pInputFileName : String) (a : Args) : Bool × List Msg :=
  let success := true
  let printed : List Msg := []
  -- check that endianness makes sense
  let rejected := endiannessRejected a.pEndianness
  let success := if rejected then false else success
  let printed := if rejected then printed ++ [Msg.badEndianness a.pEndianness] else printed
  -- check that the word width makes sense
  let rejected := wordWidthRejected a.wordWidth
  let success := if rejected then false else success
  let printed := if rejected then printed ++ [Msg.badWordWidth a.wordWidth] else printed
  -- open the input file
  let pInputFile := env.openInput pInputFileName
  let success := if pInputFile.isNone then false else success
  let printed :=
    if pInputFile.isNone then printed ++ [Msg.cannotOpenInput pInputFileName] else printed
  (success, printed)

/-- The function `main`, run on the arguments `argv` in the environment `env`. -/
def main (env : Env) (argv : List String) : MainResult :=
  match argv with
  | [] =>
    { printed := [], parseCall := none, parsed := none, outputFile := none,
      nameOverrun := false, exit := Exit.fault }
  | argv0 :: [] =>
    { printed := [Msg.usage (exeName argv0)], parseCall := none, parsed := none,
      outputFile := none, nameOverrun := false, exit := Exit.returned (-1) }
  | argv0 :: pInputFileName :: options =>
    let pExeName := exeName argv0
    let a := parseOptions options defaultArgs
    let checks := configChecks env pInputFileName a
    let success := checks.1
    let printed := checks.2
    let pInputFile := env.openInput pInputFileName
    -- create the output file name if we don't have one
    match a.pOutputFileName with
    | some name =>
      openOutputAndRun env pExeName pInputFileName pInputFileName a pInputFile (some name)
        false success printed
    | none =>
      match deriveOutputName pInputFileName with
      | none =>
        { printed := printed, parseCall := none, parsed := none, outputFile := none,
          nameOverrun := false, exit := Exit.fault }
      | some (size, truncated, name) =>
        if env.malloc size then
          openOutputAndRun env pExeName pInputFileName truncated a pInputFile (some name)
            (decide (size < name.length + 1)) success printed
        else
          openOutputAndRun env pExeName pInputFileName truncated a pInputFile none
            false false (printed ++ [Msg.cannotAllocate])

/-! ## Specification-side notions -/

/-- The unsigned value of a word read least significant byte first:
the sum of `b[i] * 256 ^ i`. -/
def unsignedValue : List Byte → Nat
  | [] => 0
  | b :: bs => b.val + 256 * unsignedValue bs

/-- The two's-complement value of the unsigned value `u` of a word of `w` bytes. -/
def twosComplement (w u : Nat) : Int :=
  if u < 2 ^ (8 * w - 1) then (u : Int) else (u : Int) - 2 ^ (8 * w)

/-- The complete words of an input read `w` bytes at a time: word `k` is made of
the bytes at offsets `k * w` to `k * w + w - 1`, for every `k` below the
quotient of the length by `w`. -/
def completeWords (w : Nat) (input : List Byte) : List (List Byte) :=
  (List.range (input.length / w)).map (fun k => (input.drop (k * w)).take w)

/-- The `fwrite` calls that emit the records `recs` when the counter of records
is `c` before the first of them: a record has the separator in front when the
counter is positive, and the counter is incremented behind it. -/
def writesFrom : Int → List (List Char) → List (List Char)
  | _, [] => []
  | c, r :: rs => (if c > 0 then [separator, r] else [r]) ++ writesFrom (wrapInt (c + 1)) rs

/-- The counter of records after `k` increments from `c`. -/
def countFrom : Int → Nat → Int
  | c, 0 => c
  | c, k + 1 => countFrom (wrapInt (c + 1)) k

/-- One byte of an integer: byte `i` of the two's-complement representation of `v`. -/
def byteOf (v : Int) (i : Nat) : Byte :=
  ⟨(v / 256 ^ i % 256).toNat % 256, Nat.mod_lt _ (by decide)⟩

/-- An encoder in the specification's words: the sample `v` as a word of `w`
bytes in two's complement, least significant byte first. -/
def encodeLittle (w : Nat) (v : Int) : List Byte := (List.range w).map (byteOf v)

/-- An encoder in the specification's words: the sample `v` as a word of `w`
bytes in two's complement, in the byte order asked for. -/
def encodeWord (w : Nat) (isLittleEndian : Bool) (v : Int) : List Byte :=
  if isLittleEndian then encodeLittle w v else (encodeLittle w v).reverse

/-- The number a run of decimal digits denotes. -/
def readDigits (cs : List Char) : Nat :=
  cs.foldl (fun acc c => 10 * acc + (c.toNat - 48)) 0

/-- An environment for examples: the file `in.pcm` (and `my.dir/in.pcm`) holds
the bytes `00 01 FF 7F`, no other file can be read, every file can be written,
every allocation succeeds. -/
def exampleEnv : Env :=
  { openInput := fun name =>
      if name = "in.pcm" ∨ name = "my.dir/in.pcm" then some [0x00, 0x01, 0xFF, 0x7F] else none
    openOutput := fun _ => true
    malloc := fun _ => true
    wordArray := [0, 0, 0, 0] }

/-- The shift amounts evaluated while one word is decoded (lines 51-59): in the
loop that calculates the number, 3 (for `x << 3`) and `x << 3` for every `x`;
in the sign test, 3 (for `wordWidth << 3`) and `(wordWidth << 3) - 1`; and when
the sign bit is set (`signSet`), 3 (for `wordWidth << 3` and for
`sizeof(wordArray) << 3`) and every `x` of the sign-extension loop. -/
def shiftAmounts (wordWidth : Nat) (signSet : Bool) : List Int :=
  (List.range wordWidth).flatMap (fun x => [(3 : Int), Int.ofNat (x <<< 3)]) ++
    [(3 : Int), Int.ofNat (wordWidth <<< 3) - 1] ++
    (if signSet then (3 : Int) :: (signLoopRange wordWidth).map Int.ofNat else [])

/-- An environment for examples: the file `name` holds `content`, no other file
can be read, every file can be written, every allocation succeeds. -/
def fileEnv (name : String) (content : List Byte) : Env :=
  { openInput := fun n => if n = name then some content else none
    openOutput := fun _ => true
    malloc := fun _ => true
    wordArray := [0, 0, 0, 0] }

/-- The messages that report an error. -/
def Msg.isError : Msg → Bool
  | Msg.badEndianness _ => true
  | Msg.badWordWidth _ => true
  | Msg.cannotOpenInput _ => true
  | Msg.cannotAllocate => true
  | Msg.cannotOpenOutput _ => true
  | Msg.parsingStarting _ _ _ _ => false
  | Msg.done _ => false
  | Msg.usage _ => false

/-- The output file name a run has to open: the one given with `-o`, or else
the one made up from the input file name when its first token is not NULL and
the allocation succeeds. -/
def availableOutputName (env : Env) (pInputFileName : String) (a : Args) : Option String :=
  match a.pOutputFileName with
  | some name => some name
  | none =>
    match deriveOutputName pInputFileName with
    | none => none
    | some (size, _, name) => if env.malloc size then some name else none

/-- An environment for examples: the file `in.pcm` can be read, no allocation
succeeds and no file can be written. -/
def noMemoryEnv : Env :=
  { openInput := fun name => if name = "in.pcm" then some [0x00, 0x01] else none
    openOutput := fun _ => false
    malloc := fun _ => false
    wordArray := [0, 0, 0, 0] }

/-- One item of a command line, behind the input path: an argument that is not
an option, or one of the three options with the argument that follows it. -/
inductive Item where
  | plain (s : String)
  | endianness (v : String)
  | wordWidth (v : String)
  | outputFile (v : String)
deriving DecidableEq, Repr

/-- The arguments an item is written as. -/
def Item.args : Item → List String
  | Item.plain s => [s]
  | Item.endianness v => ["-e", v]
  | Item.wordWidth v => ["-w", v]
  | Item.outputFile v => ["-o", v]

/-- An argument that is not an option is none of `-e`, `-w`, `-o`. -/
def Item.wellFormed : Item → Prop
  | Item.plain s => s ≠ "-e" ∧ s ≠ "-w" ∧ s ≠ "-o"
  | _ => True

/-- What an item asks for: an option sets its parameter to the value that
follows it (read as a decimal `int` for the word width), another argument sets
nothing. -/
def Item.apply (a : Args) : Item → Args
  | Item.plain _ => a
  | Item.endianness v => { a with pEndianness := v }
  | Item.wordWidth v => { a with wordWidth := atoi v }
  | Item.outputFile v => { a with pOutputFileName := some v }

/-! ## Bit-level lemmas -/

theorem and_two_pow_eq (u k : Nat) : u &&& 2 ^ k = if u.testBit k then 2 ^ k else 0 := by
  apply Nat.eq_of_testBit_eq
  intro i
  by_cases h : u.testBit k = true
  · simp only [h, if_true, Nat.testBit_and, Nat.testBit_two_pow]
    by_cases hk : k = i
    · subst hk; simp [h]
    · simp [hk]
  · simp only [h, Nat.testBit_and, Nat.testBit_two_pow, Nat.zero_testBit]
    by_cases hk : k = i
    · subst hk; simp [h]
    · simp [hk]

theorem and_two_pow_ne_zero_iff (u k : Nat) : u &&& 2 ^ k ≠ 0 ↔ u / 2 ^ k % 2 = 1 := by
  rw [and_two_pow_eq, Nat.testBit_to_div_mod]
  have hp : 0 < 2 ^ k := Nat.two_pow_pos k
  by_cases h : u / 2 ^ k % 2 = 1
  · simp [h]
  · simp [h]

theorem or_two_pow_of_lt {u k : Nat} (h : u < 2 ^ k) : u ||| 2 ^ k = u + 2 ^ k := by
  have := Nat.mul_add_lt_is_or h 1
  rw [Nat.mul_one] at this
  rw [Nat.or_comm, ← this, Nat.add_comm]

theorem foldl_or_range (n : Nat) : ∀ (k u : Nat), u < 2 ^ k → k + n ≤ 32 →
    (List.range' k n).foldl (fun u x => u ||| wrap32 (1 <<< x)) u + 2 ^ k = u + 2 ^ (k + n) := by
  induction n with
  | zero => intro k u _ _; simp
  | succ n ih =>
    intro k u hu hk
    have h1 : wrap32 (1 <<< k) = 2 ^ k := by
      unfold wrap32
      rw [Nat.one_shiftLeft]
      exact Nat.mod_eq_of_lt (Nat.pow_lt_pow_right (by decide) (by omega))
    have h2 : (2 : Nat) ^ (k + 1) = 2 * 2 ^ k := by rw [pow_succ]; omega
    have h3 : k + (n + 1) = k + 1 + n := by omega
    simp only [List.range', List.foldl_cons]
    rw [h1, or_two_pow_of_lt hu]
    have := ih (k + 1) (u + 2 ^ k) (by omega) (by omega)
    rw [h3]
    omega

/-! ## The decoder -/

theorem toInt_extended (w u r : Nat) (h1 : 1 ≤ w) (h4 : w ≤ 4) (hu : u < 2 ^ (8 * w))
    (hf : r + 2 ^ (8 * w) = u + 2 ^ 32) :
    toInt (if u / 2 ^ (8 * w - 1) % 2 = 1 then r else u) = twosComplement w u := by
  unfold twosComplement toInt
  interval_cases w <;> simp only [Nat.reduceMul, Nat.reducePow, Nat.reduceSub] at hu hf ⊢ <;>
    split_ifs <;> omega

theorem signExtend_spec (w u : Nat) (hw : 1 ≤ w ∧ w ≤ 4) (hu : u < 2 ^ (8 * w)) :
    toInt (signExtend u w) = twosComplement w u := by
  obtain ⟨h1, h4⟩ := hw
  have hm : signMask w = 2 ^ (8 * w - 1) := by interval_cases w <;> rfl
  have hr : signLoopRange w = List.range' (8 * w) (32 - 8 * w) := by
    interval_cases w <;> rfl
  have hf := foldl_or_range (32 - 8 * w) (8 * w) u hu (by omega)
  rw [show 8 * w + (32 - 8 * w) = 32 by omega] at hf
  have := toInt_extended w u _ h1 h4 hu hf
  unfold signExtend
  rw [hm, hr]
  simp only [and_two_pow_ne_zero_iff]
  exact this

theorem word_cases (word : List Byte) (w : Nat) (h1 : 1 ≤ w) (h4 : w ≤ 4)
    (hlen : word.length = w) :
    (w = 1 ∧ ∃ a, word = [a]) ∨ (w = 2 ∧ ∃ a b, word = [a, b]) ∨
    (w = 3 ∧ ∃ a b c, word = [a, b, c]) ∨ (w = 4 ∧ ∃ a b c d, word = [a, b, c, d]) := by
  rcases word with _ | ⟨a, _ | ⟨b, _ | ⟨c, _ | ⟨d, _ | ⟨e, t⟩⟩⟩⟩⟩
  · simp at hlen; omega
  · simp at hlen; subst hlen; simp
  · simp at hlen; subst hlen; simp
  · simp at hlen; subst hlen; simp
  · simp at hlen; subst hlen; simp
  · simp at hlen; omega

theorem unsignedValue_lt (word : List Byte) : unsignedValue word < 2 ^ (8 * word.length) := by
  induction word with
  | nil => simp [unsignedValue]
  | cons b bs ih =>
    have hb := b.isLt
    have : (2 : Nat) ^ (8 * (bs.length + 1)) = 256 * 2 ^ (8 * bs.length) := by
      rw [Nat.mul_add, pow_add]; norm_num; ring
    simp only [unsignedValue, List.length_cons]
    rw [this]
    omega

theorem calculateNumber_append (word tail : List Byte) (w : Nat) (hw : 1 ≤ w ∧ w ≤ 4)
    (hlen : word.length = w) : calculateNumber (word ++ tail) w = unsignedValue word := by
  obtain ⟨h1, h4⟩ := hw
  rcases word_cases word w h1 h4 hlen with
    ⟨rfl, a, rfl⟩ | ⟨rfl, a, b, rfl⟩ | ⟨rfl, a, b, c, rfl⟩ | ⟨rfl, a, b, c, d, rfl⟩ <;>
  simp [calculateNumber, unsignedValue, List.range_succ, wrap32, Nat.shiftLeft_eq] <;> omega

theorem makeLittleEnd_append (word tail : List Byte) (w : Nat) (hw : 1 ≤ w ∧ w ≤ 4)
    (hlen : word.length = w) :
    makeLittleEnd (word ++ tail) w = makeLittleEnd word w ++ tail ∧
      (makeLittleEnd word w).length = w := by
  obtain ⟨h1, h4⟩ := hw
  rcases word_cases word w h1 h4 hlen with
    ⟨rfl, a, rfl⟩ | ⟨rfl, a, b, rfl⟩ | ⟨rfl, a, b, c, rfl⟩ | ⟨rfl, a, b, c, d, rfl⟩ <;>
  simp [makeLittleEnd, List.range_succ]

theorem decodeBuffer_append (word tail : List Byte) (w : Nat) (e : Bool) (hw : 1 ≤ w ∧ w ≤ 4)
    (hlen : word.length = w) : decodeBuffer (word ++ tail) w e = decodeBuffer word w e := by
  have h := makeLittleEnd_append word tail w hw hlen
  have c1 := calculateNumber_append word tail w hw hlen
  have c2 := calculateNumber_append word [] w hw hlen
  have c3 := calculateNumber_append (makeLittleEnd word w) tail w hw h.2
  have c4 := calculateNumber_append (makeLittleEnd word w) [] w hw h.2
  rw [List.append_nil] at c2 c4
  cases e
  · simp only [decodeBuffer, Bool.not_false, if_true, h.1, c3, c4]
  · simp [decodeBuffer, c1, c2]

theorem decodeBuffer_little (word : List Byte) (w : Nat) (hw : 1 ≤ w ∧ w ≤ 4)
    (hlen : word.length = w) :
    decodeBuffer word w true = twosComplement w (unsignedValue word) := by
  have c := calculateNumber_append word [] w hw hlen
  rw [List.append_nil] at c
  have hu := unsignedValue_lt word
  rw [hlen] at hu
  simp only [decodeBuffer, Bool.not_true, Bool.false_eq_true, if_false, c]
  exact signExtend_spec w _ hw hu

/-! ## The loop of `parse` -/

theorem completeWords_of_lt (w : Nat) (input : List Byte) (h : input.length < w) :
    completeWords w input = [] := by
  simp [completeWords, Nat.div_eq_of_lt h]

theorem completeWords_of_le (w : Nat) (input : List Byte) (h0 : 0 < w) (h : w ≤ input.length) :
    completeWords w input = input.take w :: completeWords w (input.drop w) := by
  unfold completeWords
  rw [Nat.div_eq_sub_div h0 h, List.range_succ_eq_map]
  simp only [List.map_cons, List.map_map, List.length_drop, Nat.zero_mul, List.drop_zero]
  congr 1
  apply List.map_congr_left
  intro k _
  simp only [Function.comp, List.drop_drop, Nat.succ_eq_add_one]
  congr 2
  ring

theorem parseBody_output (w : Nat) (e : Bool) (st : ParseState) (wordArray input : List Byte) :
    (parseBody w e st wordArray input).output =
      (if st.itemsWritten > 0 then st.output ++ [separator] else st.output) ++
        [sprintf_d (decodeBuffer wordArray w e)] := rfl

theorem parseLoop_spec (w : Nat) (e : Bool) (hw : 1 ≤ w ∧ w ≤ 4) :
    ∀ (fuel : Nat) (st : ParseState), st.input.length < fuel →
      ∃ wa, parseLoop w e fuel st = some
        { wordArray := wa
          input := []
          output := st.output ++ writesFrom st.itemsWritten
            ((completeWords w st.input).map (fun word => sprintf_d (decodeBuffer word w e)))
          itemsWritten := countFrom st.itemsWritten (st.input.length / w) } := by
  intro fuel
  induction fuel with
  | zero => intro st h; omega
  | succ fuel ih =>
    intro st hfuel
    have hw0 : w ≠ 0 := by omega
    by_cases hlt : st.input.length < w
    · refine ⟨st.input ++ st.wordArray.drop st.input.length, ?_⟩
      have hf : fread st.wordArray w st.input =
          (false, st.input ++ st.wordArray.drop st.input.length, []) := by
        simp [fread, hlt, hw0]
      simp [parseLoop, hf, completeWords_of_lt w _ hlt, Nat.div_eq_of_lt hlt, writesFrom,
        countFrom]
    · have hle : w ≤ st.input.length := by omega
      have hf : fread st.wordArray w st.input =
          (true, st.input.take w ++ st.wordArray.drop w, st.input.drop w) := by
        simp [fread, hlt, hw0]
      have hlen : (st.input.take w).length = w := by simp [hle]
      obtain ⟨wa, hwa⟩ := ih (parseBody w e st (st.input.take w ++ st.wordArray.drop w)
        (st.input.drop w)) (by simp [parseBody]; omega)
      refine ⟨wa, ?_⟩
      simp only [parseLoop, hf]
      rw [hwa]
      have hdiv : st.input.length / w = (st.input.length - w) / w + 1 :=
        Nat.div_eq_sub_div (by omega) hle
      have hin : (parseBody w e st (st.input.take w ++ st.wordArray.drop w)
          (st.input.drop w)).input = st.input.drop w := rfl
      have hit : (parseBody w e st (st.input.take w ++ st.wordArray.drop w)
          (st.input.drop w)).itemsWritten = wrapInt (st.itemsWritten + 1) := rfl
      rw [parseBody_output, hin, hit, completeWords_of_le w st.input (by omega) hle,
        decodeBuffer_append _ _ w e hw hlen, List.length_drop, hdiv]
      congr 2
      by_cases h0 : st.itemsWritten > 0 <;> simp [h0, writesFrom]

/-! ## Renderings and records -/

theorem digitChar_ne_comma (d : Nat) (h : d < 10) : digitChar d ≠ ',' := by
  interval_cases d <;> decide

theorem decimalDigits_head : ∀ (fuel n : Nat) (acc : List Char),
    (0 < fuel ∨ ∃ d, d < 10 ∧ ∃ rest, acc = digitChar d :: rest) →
      ∃ d, d < 10 ∧ ∃ rest, decimalDigits fuel n acc = digitChar d :: rest := by
  intro fuel
  induction fuel with
  | zero =>
    intro n acc h
    rcases h with h | h
    · omega
    · simpa [decimalDigits] using h
  | succ fuel ih =>
    intro n acc _
    by_cases hn : n < 10
    · exact ⟨n, hn, acc, by simp [decimalDigits, hn]⟩
    · have := ih (n / 10) (digitChar (n % 10) :: acc)
        (Or.inr ⟨n % 10, Nat.mod_lt _ (by decide), acc, rfl⟩)
      simpa [decimalDigits, hn] using this

theorem sprintf_d_ne_separator (v : Int) : sprintf_d v ≠ separator := by
  unfold sprintf_d separator
  split_ifs
  · simp
  · obtain ⟨d, hd, rest, h⟩ := decimalDigits_head (v.natAbs + 1) v.natAbs [] (Or.inl (by omega))
    rw [h]
    intro hc
    exact digitChar_ne_comma d hd (List.cons.inj hc).1

theorem records_intersperse (rs : List (List Char)) (h : ∀ r ∈ rs, r ≠ separator) :
    records (List.intersperse separator rs) = rs := by
  induction rs with
  | nil => simp [records]
  | cons a rs ih =>
    cases rs with
    | nil =>
      have := h a (by simp)
      simp [records, this]
    | cons b rs =>
      have ha := h a (by simp)
      have := ih (fun r hr => h r (by simp [hr]))
      simp only [records, ne_eq, decide_not] at this
      simp [records, ha, this]

theorem parse_spec (wordArray input : List Byte) (w : Nat) (e : Bool) (hw : 1 ≤ w ∧ w ≤ 4) :
    ∃ wa, parse wordArray input w e = some
      { wordArray := wa
        input := []
        output := writesFrom 0
          ((completeWords w input).map (fun word => sprintf_d (decodeBuffer word w e)))
        itemsWritten := countFrom 0 (input.length / w) } := by
  obtain ⟨wa, h⟩ := parseLoop_spec w e hw (input.length + 1)
    { wordArray := wordArray, input := input, output := [], itemsWritten := 0 } (by simp)
  refine ⟨wa, ?_⟩
  unfold parse
  rw [h]
  simp

theorem records_writesFrom : ∀ (rs : List (List Char)) (c : Int),
    (∀ r ∈ rs, r ≠ separator) → records (writesFrom c rs) = rs := by
  intro rs
  induction rs with
  | nil => intro c _; simp [writesFrom, records]
  | cons r rs ih =>
    intro c h
    have hr := h r (by simp)
    have := ih (wrapInt (c + 1)) (fun x hx => h x (by simp [hx]))
    simp only [records, ne_eq, decide_not] at this
    by_cases hc : c > 0 <;> simp [writesFrom, records, hc, hr, this]

theorem records_rendered (ws : List (List Byte)) (w : Nat) (e : Bool) :
    records (List.intersperse separator
      (ws.map (fun word => sprintf_d (decodeBuffer word w e)))) =
      ws.map (fun word => sprintf_d (decodeBuffer word w e)) := by
  apply records_intersperse
  intro r hr
  obtain ⟨word, _, rfl⟩ := List.mem_map.mp hr
  exact sprintf_d_ne_separator _

theorem records_rendered_from (ws : List (List Byte)) (w : Nat) (e : Bool) (c : Int) :
    records (writesFrom c (ws.map (fun word => sprintf_d (decodeBuffer word w e)))) =
      ws.map (fun word => sprintf_d (decodeBuffer word w e)) := by
  apply records_writesFrom
  intro r hr
  obtain ⟨word, _, rfl⟩ := List.mem_map.mp hr
  exact sprintf_d_ne_separator _

theorem completeWords_getElem? (w : Nat) (input : List Byte) (k : Nat)
    (h : (k + 1) * w ≤ input.length) (h0 : 0 < w) :
    (completeWords w input)[k]? = some ((input.drop (k * w)).take w) := by
  have hk : k < input.length / w := by
    have := (Nat.le_div_iff_mul_le h0).mpr h
    omega
  simp [completeWords, List.getElem?_range, hk]

/-! ## Configuration checks -/

theorem endiannessRejected_iff (s : String) :
    endiannessRejected s = true ↔ s ≠ "l" ∧ s ≠ "b" := by
  obtain ⟨data⟩ := s
  have hl : ("l" : String).data = ['l'] := rfl
  have hb : ("b" : String).data = ['b'] := rfl
  rcases data with _ | ⟨c, _ | ⟨d, t⟩⟩
  · simp [endiannessRejected, String.length, String.ext_iff, hl, hb]
  · simp [endiannessRejected, String.length, String.toList, String.ext_iff, hl, hb]
  · simp [endiannessRejected, String.length, String.ext_iff, hl, hb]

theorem wordWidthRejected_false (wordWidth : Int) : wordWidthRejected wordWidth = false := by
  unfold wordWidthRejected
  by_cases h : wordWidth ≤ 0
  · have : ¬ wordWidth > 4 := by omega
    simp [this]
  · simp [h]

theorem openOutputAndRun_failed (env : Env) (pExeName : Option String)
    (opened pInputFileName : String) (a : Args) (pInputFile : Option (List Byte))
    (pOutputFileName : Option String) (nameOverrun : Bool) (printed : List Msg) :
    (openOutputAndRun env pExeName opened pInputFileName a pInputFile pOutputFileName
      nameOverrun false printed).parseCall = none ∧
    (openOutputAndRun env pExeName opened pInputFileName a pInputFile pOutputFileName
      nameOverrun false printed).exit = Exit.returned (-1) := by
  simp [openOutputAndRun]

theorem openOutputAndRun_badEndianness (env : Env) (pExeName : Option String)
    (opened pInputFileName : String) (a : Args) (pInputFile : Option (List Byte))
    (pOutputFileName : Option String) (nameOverrun success : Bool) (printed : List Msg)
    (s : String) :
    Msg.badEndianness s ∈ (openOutputAndRun env pExeName opened pInputFileName a pInputFile
      pOutputFileName nameOverrun success printed).printed ↔ Msg.badEndianness s ∈ printed := by
  unfold openOutputAndRun
  simp only
  split_ifs <;> (try split) <;> (try split_ifs) <;> (try split) <;> simp

theorem configChecks_rejected (env : Env) (pInputFileName : String) (a : Args)
    (h : endiannessRejected a.pEndianness = true) :
    (configChecks env pInputFileName a).1 = false := by
  simp [configChecks, h]

theorem configChecks_badEndianness (env : Env) (pInputFileName : String) (a : Args)
    (s : String) :
    Msg.badEndianness s ∈ (configChecks env pInputFileName a).2 ↔
      endiannessRejected a.pEndianness = true ∧ s = a.pEndianness := by
  unfold configChecks
  simp only [wordWidthRejected_false]
  cases endiannessRejected a.pEndianness <;> cases (env.openInput pInputFileName).isNone <;> simp

/-- The ways a run of `main` with an input file name can go, by how the output
file name is found. -/
theorem main_cases (env : Env) (argv0 pInputFileName : String) (options : List String) :
    (∃ opened name nameOverrun, main env (argv0 :: pInputFileName :: options) =
      openOutputAndRun env (exeName argv0) pInputFileName opened
        (parseOptions options defaultArgs) (env.openInput pInputFileName) name nameOverrun
        (configChecks env pInputFileName (parseOptions options defaultArgs)).1
        (configChecks env pInputFileName (parseOptions options defaultArgs)).2) ∨
    (main env (argv0 :: pInputFileName :: options) =
      { printed := (configChecks env pInputFileName (parseOptions options defaultArgs)).2
        parseCall := none, parsed := none, outputFile := none, nameOverrun := false
        exit := Exit.fault }) ∨
    (∃ opened, main env (argv0 :: pInputFileName :: options) =
      openOutputAndRun env (exeName argv0) pInputFileName opened
        (parseOptions options defaultArgs) (env.openInput pInputFileName) none false false
        ((configChecks env pInputFileName (parseOptions options defaultArgs)).2 ++
          [Msg.cannotAllocate])) := by
  unfold main
  simp only
  split
  · exact Or.inl ⟨_, _, _, rfl⟩
  · split
    · exact Or.inr (Or.inl rfl)
    · split_ifs
      · exact Or.inl ⟨_, _, _, rfl⟩
      · exact Or.inr (Or.inr ⟨_, rfl⟩)

theorem encode_decode_little (w : Nat) (word : List Byte) (hw : 1 ≤ w ∧ w ≤ 4)
    (hlen : word.length = w) : encodeWord w true (decodeBuffer word w true) = word := by
  rw [decodeBuffer_little word w hw hlen]
  obtain ⟨h1, h4⟩ := hw
  rcases word_cases word w h1 h4 hlen with
    ⟨rfl, a, rfl⟩ | ⟨rfl, a, b, rfl⟩ | ⟨rfl, a, b, c, rfl⟩ | ⟨rfl, a, b, c, d, rfl⟩
  all_goals
    simp only [encodeWord, encodeLittle, if_true, List.range_succ, List.range_zero,
      List.nil_append, List.cons_append, List.map_cons, List.map_nil, byteOf, twosComplement,
      unsignedValue, List.cons.injEq, and_true, Fin.ext_iff]
    simp only [Nat.reduceMul, Nat.reducePow, Nat.reduceSub, pow_zero, pow_one, Int.reducePow]
    have ha := a.isLt
    try have hb := b.isLt
    try have hc := c.isLt
    try have hd := d.isLt
    split_ifs <;> omega

/-! ## Reading a rendering back -/

theorem digitChar_value (d : Nat) (h : d < 10) :
    (digitChar d).toNat - 48 = d ∧ digitChar d ≠ '-' := by
  interval_cases d <;> decide

theorem foldl_digits_shift (cs : List Char) : ∀ s : Nat,
    cs.foldl (fun acc c => 10 * acc + (c.toNat - 48)) s = s * 10 ^ cs.length + readDigits cs := by
  induction cs with
  | nil => intro s; simp [readDigits]
  | cons c cs ih =>
    intro s
    simp only [readDigits, List.foldl_cons, List.length_cons]
    rw [ih (10 * s + (c.toNat - 48)), ih (10 * 0 + (c.toNat - 48))]
    ring

theorem readDigits_cons (c : Char) (cs : List Char) :
    readDigits (c :: cs) = (c.toNat - 48) * 10 ^ cs.length + readDigits cs := by
  have := foldl_digits_shift cs (10 * 0 + (c.toNat - 48))
  simpa [readDigits] using this

theorem readDigits_decimalDigits : ∀ (fuel n : Nat) (acc : List Char), n < 10 ^ fuel →
    readDigits (decimalDigits fuel n acc) = n * 10 ^ acc.length + readDigits acc := by
  intro fuel
  induction fuel with
  | zero =>
    intro n acc h
    have : n = 0 := by simpa using h
    simp [decimalDigits, this]
  | succ fuel ih =>
    intro n acc h
    by_cases hn : n < 10
    · simp only [decimalDigits, hn, if_true]
      rw [readDigits_cons, (digitChar_value n hn).1]
    · have hq : n / 10 < 10 ^ fuel := by
        rw [pow_succ] at h
        exact Nat.div_lt_of_lt_mul (by omega)
      simp only [decimalDigits, hn, if_false]
      rw [ih (n / 10) _ hq, readDigits_cons, (digitChar_value (n % 10) (Nat.mod_lt _ (by decide))).1,
        List.length_cons, pow_succ]
      have := Nat.div_add_mod n 10
      calc n / 10 * (10 ^ acc.length * 10) + (n % 10 * 10 ^ acc.length + readDigits acc)
          = (10 * (n / 10) + n % 10) * 10 ^ acc.length + readDigits acc := by ring
        _ = n * 10 ^ acc.length + readDigits acc := by rw [this]

theorem twosComplement_range (w u : Nat) (hw : 1 ≤ w ∧ w ≤ 4) (hu : u < 2 ^ (8 * w)) :
    -(2 : Int) ^ (8 * w - 1) ≤ twosComplement w u ∧
      twosComplement w u ≤ (2 : Int) ^ (8 * w - 1) - 1 := by
  obtain ⟨h1, h4⟩ := hw
  unfold twosComplement
  interval_cases w <;>
    simp only [Nat.reduceMul, Nat.reducePow, Nat.reduceSub, Int.reducePow] at hu ⊢ <;>
    split_ifs <;> omega

theorem decodeBuffer_big (word : List Byte) (w : Nat) :
    decodeBuffer word w false = decodeBuffer (makeLittleEnd word w) w true := by
  simp [decodeBuffer]

theorem makeLittleEnd_eq (word : List Byte) (w : Nat) (hw : 1 ≤ w ∧ w ≤ 4)
    (hlen : word.length = w) :
    makeLittleEnd word w = word.take ((w + 1) / 2) ++ (word.take (w / 2)).reverse := by
  obtain ⟨h1, h4⟩ := hw
  rcases word_cases word w h1 h4 hlen with
    ⟨rfl, a, rfl⟩ | ⟨rfl, a, b, rfl⟩ | ⟨rfl, a, b, c, rfl⟩ | ⟨rfl, a, b, c, d, rfl⟩ <;>
  simp [makeLittleEnd, List.range_succ]

/-! ## Size and shape of a rendering -/

theorem decimalDigits_length : ∀ (fuel n : Nat) (acc : List Char) (k : Nat),
    1 ≤ k → n < 10 ^ k → (decimalDigits fuel n acc).length ≤ k + acc.length := by
  intro fuel
  induction fuel with
  | zero => intro n acc k _ _; simp [decimalDigits]
  | succ fuel ih =>
    intro n acc k hk hn
    by_cases h10 : n < 10
    · simp only [decimalDigits, h10, if_true, List.length_cons]; omega
    · have hk2 : 2 ≤ k := by
        by_contra hlt
        have : k = 1 := by omega
        subst this
        simp at hn
        omega
      have hq : n / 10 < 10 ^ (k - 1) := by
        have : (10 : Nat) ^ k = 10 ^ (k - 1) * 10 := by
          rw [← pow_succ]; congr 1; omega
        rw [this] at hn
        exact Nat.div_lt_of_lt_mul (by omega)
      have := ih (n / 10) (digitChar (n % 10) :: acc) (k - 1) (by omega) hq
      simp only [decimalDigits, h10, if_false]
      simp only [List.length_cons] at this
      omega

theorem decimalDigits_leading : ∀ (fuel n : Nat) (acc : List Char),
    0 < n → n < 10 ^ fuel →
      ∃ d, 1 ≤ d ∧ d < 10 ∧ ∃ rest, decimalDigits fuel n acc = digitChar d :: rest := by
  intro fuel
  induction fuel with
  | zero => intro n acc h0 h; simp at h; omega
  | succ fuel ih =>
    intro n acc h0 h
    by_cases h10 : n < 10
    · exact ⟨n, h0, h10, acc, by simp [decimalDigits, h10]⟩
    · have hq : n / 10 < 10 ^ fuel := by
        rw [pow_succ] at h
        exact Nat.div_lt_of_lt_mul (by omega)
      have hpos : 0 < n / 10 := Nat.div_pos (by omega) (by decide)
      obtain ⟨d, hd1, hd, rest, hr⟩ := ih (n / 10) (digitChar (n % 10) :: acc) hpos hq
      exact ⟨d, hd1, hd, rest, by simp [decimalDigits, h10, hr]⟩

theorem digitChar_leading (d : Nat) (h1 : 1 ≤ d) (h : d < 10) :
    digitChar d ≠ '0' ∧ digitChar d ≠ '-' ∧ (digitChar d).isDigit = true := by
  interval_cases d <;> decide

theorem natAbs_lt_pow (n : Nat) : n < 10 ^ (n + 1) :=
  Nat.lt_of_lt_of_le (Nat.lt_pow_self (by decide) _) (Nat.pow_le_pow_right (by decide) (by omega))

theorem toInt_range (u : Nat) : -(2 : Int) ^ 31 ≤ toInt u ∧ toInt u < (2 : Int) ^ 31 := by
  unfold toInt
  split_ifs <;> omega

/-! ## The command line parameters -/

/-- A parameter set by `parseOptions` has its value before, or is the value `v`
(read through `f`) that follows an occurrence of its option `flag`. -/
theorem parseOptions_field {α : Type} (field : Args → α) (flag : String) (f : String → α)
    (hflag : ∀ (a : Args) (opt v : String),
      (opt = "-e" → (field { a with pEndianness := v } = field a ∨
        (flag = opt ∧ field { a with pEndianness := v } = f v))) ∧
      (opt = "-w" → (field { a with wordWidth := atoi v } = field a ∨
        (flag = opt ∧ field { a with wordWidth := atoi v } = f v))) ∧
      (opt = "-o" → (field { a with pOutputFileName := some v } = field a ∨
        (flag = opt ∧ field { a with pOutputFileName := some v } = f v)))) :
    ∀ (n : Nat) (options : List String) (a : Args), options.length ≤ n →
      field (parseOptions options a) = field a ∨
        ∃ pre v post, options = pre ++ flag :: v :: post ∧
          field (parseOptions options a) = f v := by
  intro n
  induction n with
  | zero =>
    intro options a h
    have : options = [] := List.length_eq_zero.mp (by omega)
    subst this
    exact Or.inl rfl
  | succ n ih =>
    intro options a h
    have step2 : ∀ (opt v : String) (rest : List String) (a' : Args),
        options = opt :: v :: rest → parseOptions options a = parseOptions rest a' →
        (field a' = field a ∨ (flag = opt ∧ field a' = f v)) →
        field (parseOptions options a) = field a ∨
          ∃ pre v post, options = pre ++ flag :: v :: post ∧
            field (parseOptions options a) = f v := by
      intro opt v rest a' ho hp hf
      have hlen : rest.length ≤ n := by rw [ho] at h; simp at h; omega
      rw [hp]
      rcases ih rest a' hlen with h1 | ⟨pre, v', post, hr, hv⟩
      · rcases hf with hf | ⟨hfl, hf⟩
        · exact Or.inl (h1.trans hf)
        · exact Or.inr ⟨[], v, rest, by simp [ho, hfl], h1.trans hf⟩
      · exact Or.inr ⟨opt :: v :: pre, v', post, by simp [ho, hr], hv⟩
    rcases options with _ | ⟨opt, tail⟩
    · exact Or.inl rfl
    · by_cases he : opt = "-e"
      · rcases tail with _ | ⟨v, rest⟩
        · exact Or.inl (by simp [parseOptions, he])
        · exact step2 opt v rest _ rfl (by simp [parseOptions, he]) ((hflag a opt v).1 he)
      · by_cases hw : opt = "-w"
        · rcases tail with _ | ⟨v, rest⟩
          · exact Or.inl (by simp [parseOptions, hw])
          · exact step2 opt v rest _ rfl (by simp [parseOptions, hw]) ((hflag a opt v).2.1 hw)
        · by_cases ho : opt = "-o"
          · rcases tail with _ | ⟨v, rest⟩
            · exact Or.inl (by simp [parseOptions, ho])
            · exact step2 opt v rest _ rfl (by simp [parseOptions, ho])
                ((hflag a opt v).2.2 ho)
          · have hp : parseOptions (opt :: tail) a = parseOptions tail a := by
              rcases tail with _ | ⟨v, rest⟩ <;> simp [parseOptions, he, hw, ho]
            rw [hp]
            rcases ih tail a (by simp at h; omega) with h1 | ⟨pre, v', post, hr, hv⟩
            · exact Or.inl h1
            · exact Or.inr ⟨opt :: pre, v', post, by simp [hr], hv⟩

/-! ## Runs of `main` -/

theorem main_shapes (env : Env) (argv0 pInputFileName : String) (options : List String) :
    ((parseOptions options defaultArgs).pOutputFileName = none ∧
      deriveOutputName pInputFileName = none ∧
      main env (argv0 :: pInputFileName :: options) =
        { printed := (configChecks env pInputFileName (parseOptions options defaultArgs)).2
          parseCall := none, parsed := none, outputFile := none, nameOverrun := false
          exit := Exit.fault }) ∨
    (∃ name opened nameOverrun,
      availableOutputName env pInputFileName (parseOptions options defaultArgs) = some name ∧
      main env (argv0 :: pInputFileName :: options) =
        openOutputAndRun env (exeName argv0) pInputFileName opened
          (parseOptions options defaultArgs) (env.openInput pInputFileName) (some name)
          nameOverrun
          (configChecks env pInputFileName (parseOptions options defaultArgs)).1
          (configChecks env pInputFileName (parseOptions options defaultArgs)).2) ∨
    (∃ opened,
      availableOutputName env pInputFileName (parseOptions options defaultArgs) = none ∧
      main env (argv0 :: pInputFileName :: options) =
        openOutputAndRun env (exeName argv0) pInputFileName opened
          (parseOptions options defaultArgs) (env.openInput pInputFileName) none false false
          ((configChecks env pInputFileName (parseOptions options defaultArgs)).2 ++
            [Msg.cannotAllocate])) := by
  cases hO : (parseOptions options defaultArgs).pOutputFileName with
  | some name =>
    refine Or.inr (Or.inl ⟨name, pInputFileName, false, ?_, ?_⟩)
    · simp [availableOutputName, hO]
    · simp [main, hO]
  | none =>
    cases hD : deriveOutputName pInputFileName with
    | none =>
      refine Or.inl ⟨rfl, rfl, ?_⟩
      simp [main, hO, hD]
    | some triple =>
      obtain ⟨size, truncated, name⟩ := triple
      by_cases hm : env.malloc size = true
      · refine Or.inr (Or.inl ⟨name, truncated, decide (size < name.length + 1), ?_, ?_⟩)
        · simp [availableOutputName, hO, hD, hm]
        · simp [main, hO, hD, hm]
      · refine Or.inr (Or.inr ⟨truncated, ?_, ?_⟩)
        · simp [availableOutputName, hO, hD, hm]
        · simp [main, hO, hD, hm]

theorem isError_cases :
    (∀ s, (Msg.badEndianness s).isError = true) ∧ (∀ w, (Msg.badWordWidth w).isError = true) ∧
    (∀ s, (Msg.cannotOpenInput s).isError = true) ∧ Msg.cannotAllocate.isError = true ∧
    (∀ s, (Msg.cannotOpenOutput s).isError = true) ∧
    (∀ i l w o, (Msg.parsingStarting i l w o).isError = false) ∧
    (∀ n, (Msg.done n).isError = false) ∧ (∀ e, (Msg.usage e).isError = false) :=
  ⟨fun _ => rfl, fun _ => rfl, fun _ => rfl, rfl, fun _ => rfl, fun _ _ _ _ => rfl,
    fun _ => rfl, fun _ => rfl⟩

theorem configChecks_eq (env : Env) (pInputFileName : String) (a : Args) :
    configChecks env pInputFileName a =
      (!endiannessRejected a.pEndianness && (env.openInput pInputFileName).isSome,
        (if endiannessRejected a.pEndianness = true then [Msg.badEndianness a.pEndianness]
          else []) ++
        (if env.openInput pInputFileName = none then [Msg.cannotOpenInput pInputFileName]
          else [])) := by
  unfold configChecks
  simp only [wordWidthRejected_false]
  cases endiannessRejected a.pEndianness <;> cases env.openInput pInputFileName <;> simp

theorem configChecks_invariant (env : Env) (pInputFileName : String) (a : Args) :
    (configChecks env pInputFileName a).2.any Msg.isError =
        !(configChecks env pInputFileName a).1 ∧
      ((configChecks env pInputFileName a).1 = true → (env.openInput pInputFileName).isSome) := by
  rw [configChecks_eq]
  cases endiannessRejected a.pEndianness <;> cases env.openInput pInputFileName <;>
    simp [isError_cases]

theorem openOutputAndRun_outcome (env : Env) (pExeName : Option String)
    (opened pInputFileName : String) (a : Args) (pInputFile : Option (List Byte))
    (pOutputFileName : Option String) (nameOverrun success : Bool) (printed : List Msg)
    (hq : printed.any Msg.isError = !success) :
    ((openOutputAndRun env pExeName opened pInputFileName a pInputFile pOutputFileName
        nameOverrun success printed).exit = Exit.returned 0 →
      (openOutputAndRun env pExeName opened pInputFileName a pInputFile pOutputFileName
        nameOverrun success printed).parseCall.isSome ∧
      (openOutputAndRun env pExeName opened pInputFileName a pInputFile pOutputFileName
        nameOverrun success printed).parsed.isSome) ∧
    ((openOutputAndRun env pExeName opened pInputFileName a pInputFile pOutputFileName
        nameOverrun success printed).parseCall.isSome →
      (openOutputAndRun env pExeName opened pInputFileName a pInputFile pOutputFileName
        nameOverrun success printed).exit = Exit.returned 0 ∨
      (openOutputAndRun env pExeName opened pInputFileName a pInputFile pOutputFileName
        nameOverrun success printed).exit = Exit.fault) ∧
    ((openOutputAndRun env pExeName opened pInputFileName a pInputFile pOutputFileName
        nameOverrun success printed).printed.any Msg.isError = true →
      (openOutputAndRun env pExeName opened pInputFileName a pInputFile pOutputFileName
        nameOverrun success printed).parseCall = none ∧
      (openOutputAndRun env pExeName opened pInputFileName a pInputFile pOutputFileName
        nameOverrun success printed).parsed = none ∧
      (openOutputAndRun env pExeName opened pInputFileName a pInputFile pOutputFileName
        nameOverrun success printed).exit = Exit.returned (-1) ∧
      Msg.usage pExeName ∈ (openOutputAndRun env pExeName opened pInputFileName a pInputFile
        pOutputFileName nameOverrun success printed).printed) ∧
    ((openOutputAndRun env pExeName opened pInputFileName a pInputFile pOutputFileName
        nameOverrun success printed).exit = Exit.returned (-1) →
      (openOutputAndRun env pExeName opened pInputFileName a pInputFile pOutputFileName
        nameOverrun success printed).printed.any Msg.isError = true) := by
  rcases pOutputFileName with _ | n
  · cases success
    · simp [openOutputAndRun, isError_cases] at hq ⊢
      exact hq
    · rcases pInputFile with _ | content
      · simp [openOutputAndRun, isError_cases] at hq ⊢
        exact hq
      · cases hov : overrunsWordArray a.wordWidth content.length
        · cases hp : parse env.wordArray content a.wordWidth.toNat (isLittle a.pEndianness) <;>
            simp [openOutputAndRun, isError_cases, hov, hp] at hq ⊢ <;> exact hq
        · simp [openOutputAndRun, isError_cases, hov] at hq ⊢
          exact hq
  · cases hO : env.openOutput n
    · cases success <;> simp [openOutputAndRun, isError_cases, hO] at hq ⊢
    · cases success
      · simp [openOutputAndRun, isError_cases, hO] at hq ⊢
        exact hq
      · rcases pInputFile with _ | content
        · simp [openOutputAndRun, isError_cases, hO] at hq ⊢
          exact hq
        · by_cases hn : n = opened
          · subst hn
            cases hp : parse env.wordArray [] a.wordWidth.toNat (isLittle a.pEndianness) <;>
              simp [openOutputAndRun, isError_cases, hO, hp, overrunsWordArray] at hq ⊢ <;>
              exact hq
          · cases hov : overrunsWordArray a.wordWidth content.length
            · cases hp : parse env.wordArray content a.wordWidth.toNat
                (isLittle a.pEndianness) <;>
                simp [openOutputAndRun, isError_cases, hO, hn, hov, hp] at hq ⊢ <;> exact hq
            · simp [openOutputAndRun, isError_cases, hO, hn, hov] at hq ⊢
              exact hq

theorem main_outcome (env : Env) (argv : List String) :
    ((main env argv).exit = Exit.returned 0 →
      (main env argv).parseCall.isSome ∧ (main env argv).parsed.isSome) ∧
    ((main env argv).parseCall.isSome →
      (main env argv).exit = Exit.returned 0 ∨ (main env argv).exit = Exit.fault) ∧
    ((main env argv).printed.any Msg.isError = true ∨ argv.length = 1 →
      (main env argv).parseCall = none ∧ (main env argv).parsed = none ∧
      (main env argv).exit ≠ Exit.returned 0 ∧
      ((main env argv).exit = Exit.fault ∨
        ((main env argv).exit = Exit.returned (-1) ∧
          ∃ pExeName, Msg.usage pExeName ∈ (main env argv).printed))) ∧
    ((main env argv).exit = Exit.returned (-1) →
      (main env argv).printed.any Msg.isError = true ∨ argv.length = 1) := by
  rcases argv with _ | ⟨argv0, _ | ⟨pInputFileName, options⟩⟩
  · simp [main]
  · simp [main]
  · have hinv := (configChecks_invariant env pInputFileName
      (parseOptions options defaultArgs)).1
    rcases main_shapes env argv0 pInputFileName options with
      ⟨_, _, hm⟩ | ⟨name, opened, ov, _, hm⟩ | ⟨opened, _, hm⟩
    · rw [hm]; simp
    · rw [hm]
      have h := openOutputAndRun_outcome env (exeName argv0) pInputFileName opened
        (parseOptions options defaultArgs) (env.openInput pInputFileName) (some name) ov _ _ hinv
      refine ⟨h.1, h.2.1, ?_, fun hx => Or.inl (h.2.2.2 hx)⟩
      intro hx
      have hx' : _ := hx.resolve_right (by simp)
      obtain ⟨p1, p2, p3, p4⟩ := h.2.2.1 hx'
      exact ⟨p1, p2, by rw [p3]; decide, Or.inr ⟨p3, _, p4⟩⟩
    · rw [hm]
      have h := openOutputAndRun_outcome env (exeName argv0) pInputFileName opened
        (parseOptions options defaultArgs) (env.openInput pInputFileName) none false false
        ((configChecks env pInputFileName (parseOptions options defaultArgs)).2 ++
          [Msg.cannotAllocate]) (by simp [isError_cases])
      refine ⟨h.1, h.2.1, ?_, fun hx => Or.inl (h.2.2.2 hx)⟩
      intro hx
      have hx' : _ := hx.resolve_right (by simp)
      obtain ⟨p1, p2, p3, p4⟩ := h.2.2.1 hx'
      exact ⟨p1, p2, by rw [p3]; decide, Or.inr ⟨p3, _, p4⟩⟩

theorem parse_nil (wordArray : List Byte) (w : Nat) (e : Bool) :
    parse wordArray [] w e =
      some { wordArray := wordArray, input := [], output := [], itemsWritten := 0 } := by
  by_cases hw : w = 0 <;> simp [parse, parseLoop, fread, hw, Nat.pos_of_ne_zero]

theorem overrunsWordArray_zero (wordWidth : Int) : overrunsWordArray wordWidth 0 = false := by
  unfold overrunsWordArray
  split_ifs <;> simp

theorem openOutputAndRun_cannotOpenInput (env : Env) (pExeName : Option String)
    (opened pInputFileName : String) (a : Args) (pInputFile : Option (List Byte))
    (pOutputFileName : Option String) (nameOverrun success : Bool) (printed : List Msg)
    (s : String) :
    Msg.cannotOpenInput s ∈ (openOutputAndRun env pExeName opened pInputFileName a pInputFile
      pOutputFileName nameOverrun success printed).printed ↔ Msg.cannotOpenInput s ∈ printed := by
  unfold openOutputAndRun
  simp only
  split_ifs <;> (try split) <;> (try split_ifs) <;> (try split) <;> simp

theorem openOutputAndRun_cannotOpenOutput (env : Env) (pExeName : Option String)
    (opened pInputFileName : String) (a : Args) (pInputFile : Option (List Byte))
    (name : String) (nameOverrun success : Bool) (printed : List Msg) (s : String) :
    (Msg.cannotOpenOutput s ∈ (openOutputAndRun env pExeName opened pInputFileName a pInputFile
      (some name) nameOverrun success printed).printed ↔
        Msg.cannotOpenOutput s ∈ printed ∨ (env.openOutput name = false ∧ s = name)) ∧
    ((openOutputAndRun env pExeName opened pInputFileName a pInputFile
      (some name) nameOverrun success printed).outputFile = some name ↔
        env.openOutput name = true) := by
  cases hO : env.openOutput name
  · cases success <;> simp [openOutputAndRun, hO, eq_comm]
  · cases success
    · simp [openOutputAndRun, hO]
    · simp only [openOutputAndRun, hO, Option.isSome_some, Bool.not_true, Bool.and_false,
        Bool.false_eq_true, if_false, if_true, Option.getD_some]
      constructor
      · split_ifs <;> (try split) <;> (try split_ifs) <;> (try split) <;> simp
      · split_ifs <;> (try split) <;> (try split_ifs) <;> (try split) <;> simp

theorem configChecks_cannotOpenInput (env : Env) (pInputFileName : String) (a : Args)
    (s : String) :
    (Msg.cannotOpenInput s ∈ (configChecks env pInputFileName a).2 ↔
      env.openInput pInputFileName = none ∧ s = pInputFileName) ∧
    Msg.cannotOpenOutput s ∉ (configChecks env pInputFileName a).2 := by
  rw [configChecks_eq]
  cases endiannessRejected a.pEndianness <;> cases env.openInput pInputFileName <;> simp

theorem main_messages (env : Env) (argv0 pInputFileName : String) (options : List String) :
    (∀ s, Msg.badEndianness s ∈ (main env (argv0 :: pInputFileName :: options)).printed ↔
      (endiannessRejected (parseOptions options defaultArgs).pEndianness = true ∧
        s = (parseOptions options defaultArgs).pEndianness)) ∧
    (∀ s, Msg.cannotOpenInput s ∈ (main env (argv0 :: pInputFileName :: options)).printed ↔
      (env.openInput pInputFileName = none ∧ s = pInputFileName)) ∧
    (∀ name,
      availableOutputName env pInputFileName (parseOptions options defaultArgs) = some name →
      (∀ s, Msg.cannotOpenOutput s ∈ (main env (argv0 :: pInputFileName :: options)).printed ↔
        (env.openOutput name = false ∧ s = name)) ∧
      ((main env (argv0 :: pInputFileName :: options)).outputFile = some name ↔
        env.openOutput name = true)) := by
  rcases main_shapes env argv0 pInputFileName options with
    ⟨hO, hD, hm⟩ | ⟨name, opened, ov, hn, hm⟩ | ⟨opened, hn, hm⟩
  · rw [hm]
    refine ⟨fun s => configChecks_badEndianness .., fun s =>
      (configChecks_cannotOpenInput ..).1, ?_⟩
    intro name hname
    simp [availableOutputName, hO, hD] at hname
  · rw [hm]
    refine ⟨fun s => ?_, fun s => ?_, ?_⟩
    · rw [openOutputAndRun_badEndianness]; exact configChecks_badEndianness ..
    · rw [openOutputAndRun_cannotOpenInput]; exact (configChecks_cannotOpenInput ..).1
    · intro name' hname'
      rw [hn] at hname'
      cases hname'
      refine ⟨fun s => ?_, (openOutputAndRun_cannotOpenOutput (s := name) ..).2⟩
      rw [(openOutputAndRun_cannotOpenOutput ..).1]
      simp [(configChecks_cannotOpenInput env pInputFileName _ s).2]
  · rw [hm]
    refine ⟨fun s => ?_, fun s => ?_, ?_⟩
    · rw [openOutputAndRun_badEndianness]
      simp [configChecks_badEndianness]
    · rw [openOutputAndRun_cannotOpenInput]
      simp [(configChecks_cannotOpenInput ..).1]
    · intro name hname
      rw [hn] at hname
      cases hname

theorem main_empty (env : Env) (argv0 pInputFileName name : String) (options : List String)
    (hE : endiannessRejected (parseOptions options defaultArgs).pEndianness = false)
    (hin : env.openInput pInputFileName = some [])
    (hname : availableOutputName env pInputFileName (parseOptions options defaultArgs) =
      some name)
    (hout : env.openOutput name = true) :
    (main env (argv0 :: pInputFileName :: options)).parsed =
        some { wordArray := env.wordArray, input := [], output := [], itemsWritten := 0 } ∧
      (main env (argv0 :: pInputFileName :: options)).exit = Exit.returned 0 ∧
      (main env (argv0 :: pInputFileName :: options)).outputFile = some name ∧
      Msg.done 0 ∈ (main env (argv0 :: pInputFileName :: options)).printed ∧
      (main env (argv0 :: pInputFileName :: options)).printed.any Msg.isError = false := by
  have hc := configChecks_eq env pInputFileName (parseOptions options defaultArgs)
  rw [hE, hin] at hc
  rcases main_shapes env argv0 pInputFileName options with
    ⟨hO, hD, _⟩ | ⟨name', opened, ov, hn, hm⟩ | ⟨opened, hn, _⟩
  · simp [availableOutputName, hO, hD] at hname
  · rw [hname] at hn
    cases hn
    rw [hm, hc, hin]
    simp [openOutputAndRun, hout, overrunsWordArray_zero, parse_nil, isError_cases]
  · rw [hname] at hn
    cases hn

theorem deriveOutputName_size (pInputFileName : String) (size : Nat) (truncated name : String)
    (h : deriveOutputName pInputFileName = some (size, truncated, name)) :
    name.length + 1 =
      size + (pInputFileName.toList.takeWhile (fun c => EXT_SEPARATOR.contains c)).length := by
  unfold deriveOutputName strtok at h
  simp only at h
  split_ifs at h with hempty
  simp only [Option.some.injEq, Prod.mk.injEq] at h
  obtain ⟨hs, _, hn⟩ := h
  rw [← hs, ← hn]
  simp only [String.length, afterStrtok, List.length_append]
  omega

theorem parseOptions_plain (s : String) (rest : List String) (a : Args)
    (h : s ≠ "-e" ∧ s ≠ "-w" ∧ s ≠ "-o") :
    parseOptions (s :: rest) a = parseOptions rest a := by
  rcases rest with _ | ⟨v, rest⟩ <;> simp [parseOptions, h.1, h.2.1, h.2.2]

theorem parseOptions_item (i : Item) (rest : List String) (a : Args) (h : i.wellFormed) :
    parseOptions (i.args ++ rest) a = parseOptions rest (i.apply a) := by
  cases i with
  | plain s => exact parseOptions_plain s rest a h
  | endianness v => simp [Item.args, Item.apply, parseOptions]
  | wordWidth v => simp [Item.args, Item.apply, parseOptions]
  | outputFile v => simp [Item.args, Item.apply, parseOptions]

theorem parseOptions_items : ∀ (items : List Item) (rest : List String) (a : Args),
    (∀ i ∈ items, i.wellFormed) →
      parseOptions (items.flatMap Item.args ++ rest) a =
        parseOptions rest (items.foldl Item.apply a) := by
  intro items
  induction items with
  | nil => intro rest a _; simp
  | cons i items ih =>
    intro rest a h
    simp only [List.flatMap_cons, List.append_assoc, List.foldl_cons]
    rw [parseOptions_item i _ a (h i (by simp)), ih rest _ (fun j hj => h j (by simp [hj]))]

theorem parseOptions_trailing (flag : String) (a : Args) : parseOptions [flag] a = a := by
  by_cases he : flag = "-e"
  · simp [parseOptions, he]
  · by_cases hw : flag = "-w"
    · simp [parseOptions, hw]
    · by_cases ho : flag = "-o"
      · simp [parseOptions, ho]
      · simp [parseOptions, he, hw, ho]

theorem options_items : ∀ (n : Nat) (options : List String), options.length ≤ n →
    ∃ (items : List Item) (trailing : List String), (∀ i ∈ items, i.wellFormed) ∧
      (trailing = [] ∨ trailing = ["-e"] ∨ trailing = ["-w"] ∨ trailing = ["-o"]) ∧
      options = items.flatMap Item.args ++ trailing := by
  intro n
  induction n with
  | zero =>
    intro options h
    have : options = [] := List.length_eq_zero.mp (by omega)
    exact ⟨[], [], by simp, Or.inl rfl, by simp [this]⟩
  | succ n ih =>
    intro options h
    rcases options with _ | ⟨opt, tail⟩
    · exact ⟨[], [], by simp, Or.inl rfl, by simp⟩
    · have flagCase : ∀ (mk : String → Item), (∀ v, (mk v).wellFormed) →
          (∀ v, (mk v).args = [opt, v]) →
          (tail = [] → [opt] = ["-e"] ∨ [opt] = ["-w"] ∨ [opt] = ["-o"]) →
          ∃ (items : List Item) (trailing : List String), (∀ i ∈ items, i.wellFormed) ∧
            (trailing = [] ∨ trailing = ["-e"] ∨ trailing = ["-w"] ∨ trailing = ["-o"]) ∧
            opt :: tail = items.flatMap Item.args ++ trailing := by
        intro mk hwf hargs hlast
        rcases tail with _ | ⟨v, rest⟩
        · exact ⟨[], [opt], by simp, Or.inr (hlast rfl), by simp⟩
        · obtain ⟨items, trailing, hi, ht, hr⟩ := ih rest (by simp at h; omega)
          refine ⟨mk v :: items, trailing, ?_, ht, ?_⟩
          · intro i hmem
            rcases List.mem_cons.mp hmem with rfl | hmem
            · exact hwf v
            · exact hi i hmem
          · simp [hargs, hr]
      by_cases he : opt = "-e"
      · exact flagCase Item.endianness (fun _ => trivial) (fun v => by simp [Item.args, he])
          (fun _ => Or.inl (by simp [he]))
      · by_cases hw : opt = "-w"
        · exact flagCase Item.wordWidth (fun _ => trivial) (fun v => by simp [Item.args, hw])
            (fun _ => Or.inr (Or.inl (by simp [hw])))
        · by_cases ho : opt = "-o"
          · exact flagCase Item.outputFile (fun _ => trivial)
              (fun v => by simp [Item.args, ho]) (fun _ => Or.inr (Or.inr (by simp [ho])))
          · obtain ⟨items, trailing, hi, ht, hr⟩ := ih tail (by simp at h; omega)
            refine ⟨Item.plain opt :: items, trailing, ?_, ht, ?_⟩
            · intro i hmem
              rcases List.mem_cons.mp hmem with rfl | hmem
              · exact ⟨he, hw, ho⟩
              · exact hi i hmem
            · simp [Item.args, hr]

/-! ## `atoi` reads back what `sprintf` writes -/

theorem digitChar_facts (d : Nat) (h : d < 10) :
    (digitChar d).isDigit = true ∧ isspace (digitChar d) = false ∧
      digitChar d ≠ '-' ∧ digitChar d ≠ '+' := by
  interval_cases d <;> decide

theorem decimalDigits_digits : ∀ (fuel n : Nat) (acc : List Char),
    (∀ c ∈ acc, c.isDigit = true) → ∀ c ∈ decimalDigits fuel n acc, c.isDigit = true := by
  intro fuel
  induction fuel with
  | zero => intro n acc h; simpa [decimalDigits] using h
  | succ fuel ih =>
    intro n acc h
    by_cases hn : n < 10
    · simp only [decimalDigits, hn, if_true]
      intro c hc
      rcases List.mem_cons.mp hc with rfl | hc
      · exact (digitChar_facts n hn).1
      · exact h c hc
    · simp only [decimalDigits, hn, if_false]
      apply ih
      intro c hc
      rcases List.mem_cons.mp hc with rfl | hc
      · exact (digitChar_facts (n % 10) (Nat.mod_lt _ (by decide))).1
      · exact h c hc

theorem strtol_minus (ds : List Char) (h : ∀ c ∈ ds, c.isDigit = true) :
    strtol (String.mk ('-' :: ds)) =
      max (-(2 ^ 63)) (min (2 ^ 63 - 1) (-(readDigits ds : Int))) := by
  have ht : ds.takeWhile Char.isDigit = ds := List.takeWhile_eq_self_iff.mpr h
  have hs : isspace '-' = false := by decide
  simp [strtol, String.toList, hs, ht, readDigits]

theorem strtol_digits (d : Nat) (hd : d < 10) (ds : List Char)
    (h : ∀ c ∈ ds, c.isDigit = true) :
    strtol (String.mk (digitChar d :: ds)) =
      max (-(2 ^ 63)) (min (2 ^ 63 - 1) ((readDigits (digitChar d :: ds) : Nat) : Int)) := by
  obtain ⟨h1, h2, h3, h4⟩ := digitChar_facts d hd
  have ht : (digitChar d :: ds).takeWhile Char.isDigit = digitChar d :: ds :=
    List.takeWhile_eq_self_iff.mpr (by
      intro c hc
      rcases List.mem_cons.mp hc with rfl | hc
      · exact h1
      · exact h c hc)
  unfold strtol
  simp only [String.toList, List.dropWhile_cons_of_neg (by simp [h2] : ¬ isspace (digitChar d) = true)]
  split
  · rename_i heq; exact absurd (List.cons.inj heq).1 h3
  · rename_i heq; exact absurd (List.cons.inj heq).1 h4
  · simp only [ht, readDigits]

theorem wrapInt_of_range (v : Int) (h : -(2 : Int) ^ 31 ≤ v ∧ v < (2 : Int) ^ 31) :
    wrapInt (max (-(2 ^ 63)) (min (2 ^ 63 - 1) v)) = v := by
  unfold wrapInt
  omega

theorem atoi_sprintf_d (v : Int) (hv : -(2 : Int) ^ 31 ≤ v ∧ v < (2 : Int) ^ 31) :
    atoi (String.mk (sprintf_d v)) = v := by
  have hval := readDigits_decimalDigits (v.natAbs + 1) v.natAbs [] (natAbs_lt_pow _)
  simp only [List.length_nil, pow_zero, Nat.mul_one, readDigits, List.foldl_nil,
    Nat.add_zero] at hval
  have hdig := decimalDigits_digits (v.natAbs + 1) v.natAbs [] (by simp)
  unfold atoi sprintf_d
  split_ifs with hneg
  · rw [strtol_minus _ hdig]
    simp only [readDigits, hval]
    rw [show (-(v.natAbs : Int)) = v by omega]
    exact wrapInt_of_range v hv
  · obtain ⟨d, hd, rest, hr⟩ := decimalDigits_head (v.natAbs + 1) v.natAbs [] (Or.inl (by omega))
    rw [hr] at hdig hval ⊢
    rw [strtol_digits d hd rest (fun c hc => hdig c (by simp [hc]))]
    simp only [readDigits, hval]
    rw [show ((v.natAbs : Nat) : Int) = v by omega]
    exact wrapInt_of_range v hv

theorem parseOptions_plains : ∀ (xs rest : List String) (a : Args),
    (∀ x ∈ xs, x ≠ "-e" ∧ x ≠ "-w" ∧ x ≠ "-o") →
      parseOptions (xs ++ rest) a = parseOptions rest a := by
  intro xs
  induction xs with
  | nil => intro rest a _; rfl
  | cons x xs ih =>
    intro rest a h
    rw [List.cons_append, parseOptions_plain x _ a (h x (by simp)),
      ih rest a (fun y hy => h y (by simp [hy]))]

theorem parseOptions_single (xs ys : List String) (v : String) (a : Args)
    (hx : ∀ x ∈ xs, x ≠ "-e" ∧ x ≠ "-w" ∧ x ≠ "-o")
    (hy : ∀ y ∈ ys, y ≠ "-e" ∧ y ≠ "-w" ∧ y ≠ "-o") :
    parseOptions (xs ++ "-e" :: v :: ys) a = { a with pEndianness := v } ∧
    parseOptions (xs ++ "-w" :: v :: ys) a = { a with wordWidth := atoi v } ∧
    parseOptions (xs ++ "-o" :: v :: ys) a = { a with pOutputFileName := some v } := by
  have hend : ∀ b : Args, parseOptions ys b = b := by
    intro b
    have := parseOptions_plains ys [] b hy
    rw [List.append_nil] at this
    rw [this]
    rfl
  refine ⟨?_, ?_, ?_⟩ <;> rw [parseOptions_plains xs _ a hx] <;> simp [parseOptions, hend]

/-! ## The claims -/

/-- C1: for a word width `w` from 1 to 4 and a word of `w` bytes at the front of
the buffer, the sample decoded under little endianness is the two's-complement
value of the word: with `u` the sum of `b[i] * 256 ^ i`, it is `u` when
`u < 2 ^ (8 * w - 1)` and `u - 2 ^ (8 * w)` otherwise, whatever the bytes behind
the word are; the bytes `FF FF FF FF` with `w = 4` give `-1`. -/
theorem decode_little_twos_complement (w : Nat) (word tail : List Byte)
    (hw : 1 ≤ w ∧ w ≤ 4) (hlen : word.length = w) :
    decodeBuffer (word ++ tail) w true =
        (if unsignedValue word < 2 ^ (8 * w - 1) then (unsignedValue word : Int)
         else (unsignedValue word : Int) - 2 ^ (8 * w)) ∧
      decodeBuffer [0xFF, 0xFF, 0xFF, 0xFF] 4 true = -1 := by
  refine ⟨?_, by decide⟩
  rw [decodeBuffer_append word tail w true hw hlen, decodeBuffer_little word w hw hlen]
  rfl

theorem decode_little_twos_complement_witness :
    (1 ≤ 3 ∧ 3 ≤ 4) ∧ ([0x00, 0x00, 0x80] : List Byte).length = 3 ∧
      decodeBuffer ([0x00, 0x00, 0x80] ++ [0x55]) 3 true = -8388608 := by
  refine ⟨by decide, by decide, ?_⟩
  have h := (decode_little_twos_complement 3 [0x00, 0x00, 0x80] [0x55] (by decide) (by decide)).1
  rw [h]
  decide

/-- C2 (evaluation of the code): the bytes `01 00` with `w = 2` decode to 1 under
little endianness and to 257 under big endianness, not to 256, which is what the
byte-reversed word `00 01` decodes to under little endianness: the loop that
reorders the bytes has copied byte 0 over byte 1 before byte 1 is read. -/
theorem decode_big_0100 :
    decodeBuffer [0x01, 0x00] 2 true = 1 ∧ decodeBuffer [0x01, 0x00] 2 false = 257 ∧
      decodeBuffer [0x00, 0x01] 2 true = 256 ∧ makeLittleEnd [0x01, 0x00] 2 = [0x01, 0x01] := by
  decide

/-- C3 (evaluation of the code): decoding the word `01 00` under big endianness
with `w = 2` and encoding the sample again gives `01 01`, not the word decoded;
the words `01 00` and `01 05` decode to the same sample. -/
theorem encode_decode_big_0100 :
    encodeWord 2 false (decodeBuffer [0x01, 0x00] 2 false) = [0x01, 0x01] ∧
      encodeWord 2 false (decodeBuffer [0x01, 0x00] 2 false) ≠ [0x01, 0x00] ∧
      decodeBuffer [0x01, 0x00] 2 false = decodeBuffer [0x01, 0x05] 2 false := by
  decide

/-- C6 (evaluation of the code): the word width check of `main` rejects no
value; run with `-w 0`, and with `-w 5`, on a readable file, `main` prints no
word width error, calls `parse` and returns 0. -/
theorem main_word_width_0_and_5 :
    (∀ wordWidth : Int, wordWidthRejected wordWidth = false) ∧
    main exampleEnv ["pcm_file_convert", "in.pcm", "-w", "0"] =
      { printed := [Msg.parsingStarting "in" true 0 "in.csv", Msg.done 0]
        parseCall := some ([0x00, 0x01, 0xFF, 0x7F], 0, true)
        parsed := some { wordArray := [0, 0, 0, 0], input := [0x00, 0x01, 0xFF, 0x7F],
                         output := [], itemsWritten := 0 }
        outputFile := some "in.csv", nameOverrun := false, exit := Exit.returned 0 } ∧
    (main exampleEnv ["pcm_file_convert", "in.pcm", "-w", "5"]).printed =
      [Msg.parsingStarting "in" true 5 "in.csv", Msg.done 0] ∧
    (main exampleEnv ["pcm_file_convert", "in.pcm", "-w", "5"]).parseCall =
      some ([0x00, 0x01, 0xFF, 0x7F], 5, true) ∧
    (main exampleEnv ["pcm_file_convert", "in.pcm", "-w", "5"]).exit = Exit.returned 0 := by
  refine ⟨wordWidthRejected_false, ?_, ?_, ?_, ?_⟩ <;> decide

/-- C7: when the endianness the command line sets is anything but exactly `l` or
`b`, `main` prints the endianness error, does not call `parse` and does not end
with exit status 0; when it is `l` or `b`, no endianness error is printed; the
check rejects `x`, the empty text, `lb` and `L`. -/
theorem main_endianness_check (env : Env) (argv0 pInputFileName : String)
    (options : List String) :
    ((parseOptions options defaultArgs).pEndianness ≠ "l" ∧
      (parseOptions options defaultArgs).pEndianness ≠ "b" →
        (main env (argv0 :: pInputFileName :: options)).parseCall = none ∧
        (main env (argv0 :: pInputFileName :: options)).exit ≠ Exit.returned 0 ∧
        Msg.badEndianness (parseOptions options defaultArgs).pEndianness ∈
          (main env (argv0 :: pInputFileName :: options)).printed) ∧
    ((parseOptions options defaultArgs).pEndianness = "l" ∨
      (parseOptions options defaultArgs).pEndianness = "b" →
        ∀ s, Msg.badEndianness s ∉ (main env (argv0 :: pInputFileName :: options)).printed) ∧
    (endiannessRejected "x" = true ∧ endiannessRejected "" = true ∧
      endiannessRejected "lb" = true ∧ endiannessRejected "L" = true) := by
  refine ⟨?_, ?_, by decide⟩
  · intro h
    have hrej := (endiannessRejected_iff _).mpr h
    have hs := configChecks_rejected env pInputFileName _ hrej
    have hp := (configChecks_badEndianness env pInputFileName _ _).mpr ⟨hrej, rfl⟩
    rcases main_cases env argv0 pInputFileName options with
      ⟨o, n, v, hm⟩ | hm | ⟨o, hm⟩ <;> rw [hm]
    · rw [hs]
      refine ⟨(openOutputAndRun_failed ..).1, ?_, ?_⟩
      · rw [(openOutputAndRun_failed ..).2]; decide
      · rw [openOutputAndRun_badEndianness]; exact hp
    · exact ⟨rfl, by simp, hp⟩
    · refine ⟨(openOutputAndRun_failed ..).1, ?_, ?_⟩
      · rw [(openOutputAndRun_failed ..).2]; decide
      · rw [openOutputAndRun_badEndianness]; simp [hp]
  · intro h s
    have hrej : endiannessRejected (parseOptions options defaultArgs).pEndianness = false := by
      rcases h with h | h <;> rw [h] <;> decide
    have hp : Msg.badEndianness s ∉
        (configChecks env pInputFileName (parseOptions options defaultArgs)).2 := by
      rw [configChecks_badEndianness, hrej]; simp
    rcases main_cases env argv0 pInputFileName options with
      ⟨o, n, v, hm⟩ | hm | ⟨o, hm⟩ <;> rw [hm]
    · rw [openOutputAndRun_badEndianness]; exact hp
    · exact hp
    · rw [openOutputAndRun_badEndianness]; simp [hp]

theorem main_endianness_check_witness :
    ((parseOptions ["-e", "x"] defaultArgs).pEndianness ≠ "l" ∧
      (parseOptions ["-e", "x"] defaultArgs).pEndianness ≠ "b") ∧
    (main exampleEnv ["pcm_file_convert", "in.pcm", "-e", "x"]).parseCall = none ∧
    (main exampleEnv ["pcm_file_convert", "in.pcm", "-e", "x"]).exit ≠ Exit.returned 0 ∧
    Msg.badEndianness (parseOptions ["-e", "x"] defaultArgs).pEndianness ∈
      (main exampleEnv ["pcm_file_convert", "in.pcm", "-e", "x"]).printed :=
  ⟨by decide,
    (main_endianness_check exampleEnv "pcm_file_convert" "in.pcm" ["-e", "x"]).1 (by decide)⟩

/-- C8: for word width 1, under either endianness, the byte `b` at the front of
the buffer decodes to `b` when `b ≤ 0x7F` and to `b - 256` otherwise; `0x7F`
gives 127, `0x80` gives -128 and `0xFF` gives -1. -/
theorem decode_one_byte (b : Byte) (tail : List Byte) (e : Bool) :
    decodeBuffer (b :: tail) 1 e = (if b.val ≤ 0x7F then (b.val : Int) else (b.val : Int) - 256) ∧
      decodeBuffer [0x7F] 1 e = 127 ∧ decodeBuffer [0x80] 1 e = -128 ∧
      decodeBuffer [0xFF] 1 e = -1 := by
  have hbig : ∀ c : Byte, decodeBuffer [c] 1 false = decodeBuffer [c] 1 true := by
    intro c
    simp [decodeBuffer, makeLittleEnd, List.range_succ]
  have hone : ∀ c : Byte, decodeBuffer [c] 1 e = twosComplement 1 (unsignedValue [c]) := by
    intro c
    cases e
    · rw [hbig c]; exact decodeBuffer_little [c] 1 (by decide) rfl
    · exact decodeBuffer_little [c] 1 (by decide) rfl
  refine ⟨?_, ?_, ?_, ?_⟩
  · have := decodeBuffer_append [b] tail 1 e (by decide) rfl
    rw [List.singleton_append] at this
    rw [this, hone b]
    have hb := b.isLt
    simp only [twosComplement, unsignedValue]
    split_ifs <;> omega
  · rw [hone]; decide
  · rw [hone]; decide
  · rw [hone]; decide

/-- C9: for a word width `w` from 1 to 4 and either endianness, the `k`-th
record `parse` writes is the rendering of the sample decoded from the `k`-th
complete word alone: two inputs whose `k`-th words are equal give the same
`k`-th record, whatever the other words and the initial content of the word
buffer are. -/
theorem parse_record_of_word (wordArray₁ wordArray₂ input₁ input₂ : List Byte)
    (w k : Nat) (e : Bool) (hw : 1 ≤ w ∧ w ≤ 4)
    (h₁ : (k + 1) * w ≤ input₁.length) (h₂ : (k + 1) * w ≤ input₂.length)
    (heq : (input₁.drop (k * w)).take w = (input₂.drop (k * w)).take w) :
    ∃ st₁ st₂, parse wordArray₁ input₁ w e = some st₁ ∧
      parse wordArray₂ input₂ w e = some st₂ ∧
      (records st₁.output)[k]? =
        some (sprintf_d (decodeBuffer ((input₁.drop (k * w)).take w) w e)) ∧
      (records st₂.output)[k]? = (records st₁.output)[k]? := by
  obtain ⟨wa₁, p₁⟩ := parse_spec wordArray₁ input₁ w e hw
  obtain ⟨wa₂, p₂⟩ := parse_spec wordArray₂ input₂ w e hw
  have c₁ := completeWords_getElem? w input₁ k h₁ (by omega)
  have c₂ := completeWords_getElem? w input₂ k h₂ (by omega)
  refine ⟨_, _, p₁, p₂, ?_, ?_⟩
  · simp only [records_rendered_from, List.getElem?_map, c₁, Option.map_some']
  · simp only [records_rendered_from, List.getElem?_map, c₁, c₂, Option.map_some', heq]

theorem parse_record_of_word_witness :
    (1 ≤ 2 ∧ 2 ≤ 4) ∧ (1 + 1) * 2 ≤ ([1, 2, 0xFE, 0xFF, 5] : List Byte).length ∧
    (1 + 1) * 2 ≤ ([7, 7, 0xFE, 0xFF] : List Byte).length ∧
    (([1, 2, 0xFE, 0xFF, 5] : List Byte).drop (1 * 2)).take 2 =
      (([7, 7, 0xFE, 0xFF] : List Byte).drop (1 * 2)).take 2 ∧
    ∃ st₁ st₂, parse [0, 0, 0, 0] [1, 2, 0xFE, 0xFF, 5] 2 true = some st₁ ∧
      parse [9, 9, 9, 9] [7, 7, 0xFE, 0xFF] 2 true = some st₂ ∧
      (records st₁.output)[1]? = some (sprintf_d (decodeBuffer
        ((([1, 2, 0xFE, 0xFF, 5] : List Byte).drop (1 * 2)).take 2) 2 true)) ∧
      (records st₂.output)[1]? = (records st₁.output)[1]? :=
  ⟨by decide, by decide, by decide, by decide,
    parse_record_of_word [0, 0, 0, 0] [9, 9, 9, 9] [1, 2, 0xFE, 0xFF, 5] [7, 7, 0xFE, 0xFF]
      2 1 true (by decide) (by decide) (by decide) (by decide)⟩

/-- C10 (evaluation of the code): the output file name `main` makes up is the
input file name cut at the first `.` that follows a character other than `.`,
followed by `.csv`: `input.pcm` gives `input.csv`, and `my.dir/in.pcm` gives
`my.csv`, not `my.dir/in.csv`. -/
theorem derived_name_my_dir :
    deriveOutputName "input.pcm" = some (10, "input", "input.csv") ∧
    deriveOutputName "my.dir/in.pcm" = some (7, "my", "my.csv") ∧
    (main exampleEnv ["pcm_file_convert", "my.dir/in.pcm"]).outputFile = some "my.csv" ∧
    (main exampleEnv ["pcm_file_convert", "my.dir/in.pcm"]).exit = Exit.returned 0 ∧
    ("my.csv" : String) ≠ "my.dir/in.csv" := by
  decide

/-- C11 (evaluation of the code): run on the input path `...`, which cannot be
opened, `main` prints the error of the input file and then hands the NULL token
of `strtok` to `strlen`: the usage text is not printed and `main` does not
return. In every run, `main` returns 0 only when `parse` was called and
returned; an error message or a missing input path means that `parse` is not
called and the exit status is not 0, and that the usage text is printed
whenever `main` returns. -/
theorem main_null_token :
    main exampleEnv ["pcm_file_convert", "..."] =
      { printed := [Msg.cannotOpenInput "..."], parseCall := none, parsed := none,
        outputFile := none, nameOverrun := false, exit := Exit.fault } ∧
    (∀ pExeName, Msg.usage pExeName ∉ (main exampleEnv ["pcm_file_convert", "..."]).printed) ∧
    (∀ (env : Env) (argv : List String),
      ((main env argv).exit = Exit.returned 0 →
        (main env argv).parseCall.isSome ∧ (main env argv).parsed.isSome) ∧
      ((main env argv).parseCall.isSome →
        (main env argv).exit = Exit.returned 0 ∨ (main env argv).exit = Exit.fault) ∧
      ((main env argv).printed.any Msg.isError = true ∨ argv.length = 1 →
        (main env argv).parseCall = none ∧ (main env argv).parsed = none ∧
        (main env argv).exit ≠ Exit.returned 0 ∧
        ((main env argv).exit = Exit.fault ∨
          ((main env argv).exit = Exit.returned (-1) ∧
            ∃ pExeName, Msg.usage pExeName ∈ (main env argv).printed))) ∧
      ((main env argv).exit = Exit.returned (-1) →
        (main env argv).printed.any Msg.isError = true ∨ argv.length = 1)) := by
  refine ⟨by decide, ?_, main_outcome⟩
  have h : (main exampleEnv ["pcm_file_convert", "..."]).printed = [Msg.cannotOpenInput "..."] := by
    decide
  intro pExeName
  rw [h]
  simp

/-- C12: an empty input gives no record, an empty output text and the count 0,
whatever the word width and the endianness flag of `parse` are; and a run of
`main` with a valid endianness, any word width, an input file that is empty and
an output file that opens finishes with `parse` having written nothing and returned 0, the
message of 0 items, no error message and the exit status 0. -/
theorem empty_input (env : Env) (argv0 pInputFileName name : String) (options : List String)
    (hE : (parseOptions options defaultArgs).pEndianness = "l" ∨
      (parseOptions options defaultArgs).pEndianness = "b")
    (hin : env.openInput pInputFileName = some [])
    (hname : availableOutputName env pInputFileName (parseOptions options defaultArgs) =
      some name)
    (hout : env.openOutput name = true) :
    (∀ (wordArray : List Byte) (w : Nat) (e : Bool), ∃ st, parse wordArray [] w e = some st ∧
      records st.output = [] ∧ fileText st.output = [] ∧ st.itemsWritten = 0) ∧
    (∃ st, (main env (argv0 :: pInputFileName :: options)).parsed = some st ∧
      records st.output = [] ∧ fileText st.output = [] ∧ st.itemsWritten = 0) ∧
    (main env (argv0 :: pInputFileName :: options)).exit = Exit.returned 0 ∧
    Msg.done 0 ∈ (main env (argv0 :: pInputFileName :: options)).printed ∧
    (main env (argv0 :: pInputFileName :: options)).printed.any Msg.isError = false := by
  have hrej : endiannessRejected (parseOptions options defaultArgs).pEndianness = false := by
    rcases hE with h | h <;> rw [h] <;> decide
  obtain ⟨h1, h2, _, h4, h5⟩ := main_empty env argv0 pInputFileName name options hrej hin hname hout
  refine ⟨fun wordArray w e => ⟨_, parse_nil wordArray w e, rfl, rfl, rfl⟩,
    ⟨_, h1, rfl, rfl, rfl⟩, h2, h4, h5⟩

theorem empty_input_witness :
    ((parseOptions ["-w", "2", "-e", "b"] defaultArgs).pEndianness = "l" ∨
      (parseOptions ["-w", "2", "-e", "b"] defaultArgs).pEndianness = "b") ∧
    (fileEnv "empty.pcm" []).openInput "empty.pcm" = some [] ∧
    availableOutputName (fileEnv "empty.pcm" []) "empty.pcm"
      (parseOptions ["-w", "2", "-e", "b"] defaultArgs) = some "empty.csv" ∧
    (fileEnv "empty.pcm" []).openOutput "empty.csv" = true ∧
    (main (fileEnv "empty.pcm" []) ["pcm_file_convert", "empty.pcm", "-w", "2", "-e", "b"]).exit =
      Exit.returned 0 ∧
    Msg.done 0 ∈
      (main (fileEnv "empty.pcm" []) ["pcm_file_convert", "empty.pcm", "-w", "2", "-e", "b"]).printed := by
  have h := empty_input (fileEnv "empty.pcm" []) "pcm_file_convert" "empty.pcm" "empty.csv"
    ["-w", "2", "-e", "b"] (by decide) (by decide) (by decide) (by decide)
  exact ⟨by decide, by decide, by decide, by decide, h.2.2.1, h.2.2.2.1⟩

/-- C13 (as amended): in every run with an input path the endianness check and
the opening of the input file are made, and the output file is opened whenever
there is an output file name to open (given with `-o`, or made up from a token
that is not NULL and allocated); each of the three prints its error message
exactly when it fails, whatever the earlier checks gave: an invalid endianness
together with an input file that cannot be opened gives both messages. -/
theorem checks_all_made (env : Env) (argv0 pInputFileName : String) (options : List String) :
    (∀ s, Msg.badEndianness s ∈ (main env (argv0 :: pInputFileName :: options)).printed ↔
      (endiannessRejected (parseOptions options defaultArgs).pEndianness = true ∧
        s = (parseOptions options defaultArgs).pEndianness)) ∧
    (∀ s, Msg.cannotOpenInput s ∈ (main env (argv0 :: pInputFileName :: options)).printed ↔
      (env.openInput pInputFileName = none ∧ s = pInputFileName)) ∧
    (∀ name,
      availableOutputName env pInputFileName (parseOptions options defaultArgs) = some name →
      (∀ s, Msg.cannotOpenOutput s ∈ (main env (argv0 :: pInputFileName :: options)).printed ↔
        (env.openOutput name = false ∧ s = name)) ∧
      ((main env (argv0 :: pInputFileName :: options)).outputFile = some name ↔
        env.openOutput name = true)) ∧
    (main exampleEnv ["pcm_file_convert", "missing.pcm", "-e", "x"]).printed =
      [Msg.badEndianness "x", Msg.cannotOpenInput "missing.pcm",
        Msg.usage (some "pcm_file_convert")] := by
  obtain ⟨h1, h2, h3⟩ := main_messages env argv0 pInputFileName options
  exact ⟨h1, h2, h3, by decide⟩

theorem checks_all_made_witness :
    availableOutputName noMemoryEnv "in.pcm"
      (parseOptions ["-e", "x", "-o", "out.csv"] defaultArgs) = some "out.csv" ∧
    (∀ s, Msg.cannotOpenOutput s ∈
        (main noMemoryEnv ["pcm_file_convert", "in.pcm", "-e", "x", "-o", "out.csv"]).printed ↔
      (noMemoryEnv.openOutput "out.csv" = false ∧ s = "out.csv")) ∧
    (∀ s, Msg.badEndianness s ∈
        (main noMemoryEnv ["pcm_file_convert", "in.pcm", "-e", "x", "-o", "out.csv"]).printed ↔
      (endiannessRejected (parseOptions ["-e", "x", "-o", "out.csv"] defaultArgs).pEndianness =
          true ∧
        s = (parseOptions ["-e", "x", "-o", "out.csv"] defaultArgs).pEndianness)) :=
  ⟨by decide,
    ((checks_all_made noMemoryEnv "pcm_file_convert" "in.pcm"
      ["-e", "x", "-o", "out.csv"]).2.2.1 "out.csv" (by decide)).1,
    (checks_all_made noMemoryEnv "pcm_file_convert" "in.pcm" ["-e", "x", "-o", "out.csv"]).1⟩

/-- C13 (as stated, refuted): where no allocation succeeds and no file can be
written, a run on `in.pcm` without `-o` reports the failed allocation and the
usage text only: the output file is not opened, and no message reports that it
cannot be opened. -/
theorem output_open_skipped :
    (main noMemoryEnv ["pcm_file_convert", "in.pcm"]).printed =
      [Msg.cannotAllocate, Msg.usage (some "pcm_file_convert")] ∧
    (main noMemoryEnv ["pcm_file_convert", "in.pcm"]).outputFile = none ∧
    (∀ name, noMemoryEnv.openOutput name = false) ∧
    ¬ (∀ name, noMemoryEnv.openOutput name = false →
      ∃ s, Msg.cannotOpenOutput s ∈ (main noMemoryEnv ["pcm_file_convert", "in.pcm"]).printed) := by
  have h : (main noMemoryEnv ["pcm_file_convert", "in.pcm"]).printed =
      [Msg.cannotAllocate, Msg.usage (some "pcm_file_convert")] := by decide
  refine ⟨h, by decide, fun _ => rfl, ?_⟩
  intro hall
  obtain ⟨s, hs⟩ := hall "in.csv" rfl
  rw [h] at hs
  simp at hs

/-- C14: for every list of arguments behind the input path, the endianness is
`l` unless it is the value that follows an option `-e`, the word width is 4
unless it is `atoi` of the value that follows an option `-w`, and there is an
output path only as the value that follows an option `-o`; the three options,
in any order, each take the argument that follows them as their value. Every
list of arguments is a sequence of items (an option with its value, or an
argument that is no option), with at most one option without a value at the
end; every item takes effect in turn, the last value given to a parameter
standing; an option alone among arguments that are no options sets its parameter
and nothing else. The word width is read as `atoi` does: it reads back every
`int` written in decimal. -/
theorem parseOptions_defaults (options : List String) :
    ((parseOptions options defaultArgs).pEndianness = "l" ∨
      ∃ pre v post, options = pre ++ "-e" :: v :: post ∧
        (parseOptions options defaultArgs).pEndianness = v) ∧
    ((parseOptions options defaultArgs).wordWidth = 4 ∨
      ∃ pre v post, options = pre ++ "-w" :: v :: post ∧
        (parseOptions options defaultArgs).wordWidth = atoi v) ∧
    ((parseOptions options defaultArgs).pOutputFileName = none ∨
      ∃ pre v post, options = pre ++ "-o" :: v :: post ∧
        (parseOptions options defaultArgs).pOutputFileName = some v) ∧
    (∀ e w o : String,
      parseOptions ["-e", e, "-w", w, "-o", o] defaultArgs =
        { pEndianness := e, wordWidth := atoi w, pOutputFileName := some o } ∧
      parseOptions ["-e", e, "-o", o, "-w", w] defaultArgs =
        { pEndianness := e, wordWidth := atoi w, pOutputFileName := some o } ∧
      parseOptions ["-w", w, "-e", e, "-o", o] defaultArgs =
        { pEndianness := e, wordWidth := atoi w, pOutputFileName := some o } ∧
      parseOptions ["-w", w, "-o", o, "-e", e] defaultArgs =
        { pEndianness := e, wordWidth := atoi w, pOutputFileName := some o } ∧
      parseOptions ["-o", o, "-e", e, "-w", w] defaultArgs =
        { pEndianness := e, wordWidth := atoi w, pOutputFileName := some o } ∧
      parseOptions ["-o", o, "-w", w, "-e", e] defaultArgs =
        { pEndianness := e, wordWidth := atoi w, pOutputFileName := some o }) ∧
    (∀ (items : List Item) (a : Args), (∀ i ∈ items, i.wellFormed) →
      parseOptions (items.flatMap Item.args) a = items.foldl Item.apply a ∧
      ∀ flag, parseOptions (items.flatMap Item.args ++ [flag]) a = items.foldl Item.apply a) ∧
    (∃ (items : List Item) (trailing : List String), (∀ i ∈ items, i.wellFormed) ∧
      (trailing = [] ∨ trailing = ["-e"] ∨ trailing = ["-w"] ∨ trailing = ["-o"]) ∧
      options = items.flatMap Item.args ++ trailing ∧
      parseOptions options defaultArgs = items.foldl Item.apply defaultArgs) ∧
    (∀ (xs ys : List String) (v : String) (a : Args),
      (∀ x ∈ xs, x ≠ "-e" ∧ x ≠ "-w" ∧ x ≠ "-o") →
      (∀ y ∈ ys, y ≠ "-e" ∧ y ≠ "-w" ∧ y ≠ "-o") →
      parseOptions (xs ++ "-e" :: v :: ys) a = { a with pEndianness := v } ∧
      parseOptions (xs ++ "-w" :: v :: ys) a = { a with wordWidth := atoi v } ∧
      parseOptions (xs ++ "-o" :: v :: ys) a = { a with pOutputFileName := some v }) ∧
    (∀ xs : List String, (∀ x ∈ xs, x ≠ "-e" ∧ x ≠ "-w" ∧ x ≠ "-o") →
      parseOptions xs defaultArgs = defaultArgs) ∧
    (∀ v : Int, -(2 : Int) ^ 31 ≤ v ∧ v < (2 : Int) ^ 31 → atoi (String.mk (sprintf_d v)) = v) ∧
    (atoi "2" = 2 ∧ atoi "  +3" = 3 ∧ atoi "-1" = -1 ∧ atoi "4x" = 4 ∧ atoi "x4" = 0 ∧
      atoi "" = 0 ∧ atoi "4294967298" = 2 ∧ atoi "2147483648" = -2147483648) ∧
    parseOptions ["-w", "2"] defaultArgs =
      { pEndianness := "l", wordWidth := 2, pOutputFileName := none } := by
  refine ⟨?_, ?_, ?_, ?_, ?_, ?_, ?_, ?_, atoi_sprintf_d, by decide, by decide⟩
  · exact parseOptions_field Args.pEndianness "-e" id
      (fun a opt v => ⟨fun h => Or.inr ⟨h.symm, rfl⟩, fun _ => Or.inl rfl, fun _ => Or.inl rfl⟩)
      options.length options defaultArgs (Nat.le_refl _)
  · exact parseOptions_field Args.wordWidth "-w" atoi
      (fun a opt v => ⟨fun _ => Or.inl rfl, fun h => Or.inr ⟨h.symm, rfl⟩, fun _ => Or.inl rfl⟩)
      options.length options defaultArgs (Nat.le_refl _)
  · exact parseOptions_field Args.pOutputFileName "-o" some
      (fun a opt v => ⟨fun _ => Or.inl rfl, fun _ => Or.inl rfl, fun h => Or.inr ⟨h.symm, rfl⟩⟩)
      options.length options defaultArgs (Nat.le_refl _)
  · intro e w o
    simp [parseOptions, defaultArgs]
  · intro items a h
    constructor
    · have := parseOptions_items items [] a h
      rw [List.append_nil] at this
      rw [this]
      rfl
    · intro flag
      rw [parseOptions_items items [flag] a h, parseOptions_trailing]
  · obtain ⟨items, trailing, hi, ht, hr⟩ := options_items options.length options (Nat.le_refl _)
    refine ⟨items, trailing, hi, ht, hr, ?_⟩
    rw [hr, parseOptions_items items trailing defaultArgs hi]
    rcases ht with h | h | h | h <;> rw [h]
    · rfl
    · exact parseOptions_trailing _ _
    · exact parseOptions_trailing _ _
    · exact parseOptions_trailing _ _
  · intro xs ys v a hx hy
    exact parseOptions_single xs ys v a hx hy
  · intro xs hx
    have := parseOptions_plains xs [] defaultArgs hx
    rw [List.append_nil] at this
    rw [this]
    rfl

theorem parseOptions_defaults_witness :
    (∀ i ∈ [Item.plain "x", Item.wordWidth "2", Item.endianness "b"], i.wellFormed) ∧
    parseOptions ["x", "-w", "2", "-e", "b"] defaultArgs =
      { pEndianness := "b", wordWidth := 2, pOutputFileName := none } := by
  have hwf : ∀ i ∈ [Item.plain "x", Item.wordWidth "2", Item.endianness "b"], i.wellFormed := by
    intro i hi
    simp only [List.mem_cons, List.mem_singleton, List.not_mem_nil, or_false] at hi
    rcases hi with rfl | rfl | rfl
    · exact ⟨by decide, by decide, by decide⟩
    · trivial
    · trivial
  have h := ((parseOptions_defaults []).2.2.2.2.1
    [Item.plain "x", Item.wordWidth "2", Item.endianness "b"] defaultArgs hwf).1
  refine ⟨hwf, ?_⟩
  have hargs : [Item.plain "x", Item.wordWidth "2", Item.endianness "b"].flatMap Item.args =
      ["x", "-w", "2", "-e", "b"] := by decide
  rw [hargs] at h
  rw [h]
  decide

/-- C15: for a word width `w` from 1 to 4, every shift evaluated while a word is
decoded (calculation of the number, sign test, sign-extension loop) has an
amount from 0 to 31; for `w = 4` the sign-extension loop has no iteration and
leaves the number as it is. -/
theorem shift_amounts_in_range (w : Nat) (signSet : Bool) (hw : 1 ≤ w ∧ w ≤ 4) :
    (∀ s ∈ shiftAmounts w signSet, 0 ≤ s ∧ s ≤ 31) ∧
      (∀ x ∈ signLoopRange w, w <<< 3 ≤ x ∧ x ≤ 31) ∧
      signLoopRange 4 = [] ∧ (∀ u, signExtend u 4 = u) := by
  obtain ⟨h1, h4⟩ := hw
  refine ⟨?_, ?_, rfl, ?_⟩
  · interval_cases w <;> cases signSet <;> decide
  · interval_cases w <;> decide
  · intro u
    have : signLoopRange 4 = [] := rfl
    simp [signExtend, this]

theorem shift_amounts_in_range_witness :
    (1 ≤ 3 ∧ 3 ≤ 4) ∧
    ((∀ s ∈ shiftAmounts 3 true, 0 ≤ s ∧ s ≤ 31) ∧
      (∀ x ∈ signLoopRange 3, 3 <<< 3 ≤ x ∧ x ≤ 31) ∧
      signLoopRange 4 = [] ∧ (∀ u, signExtend u 4 = u)) :=
  ⟨by decide, shift_amounts_in_range 3 true (by decide)⟩

/-- C16: for a word width `w` from 1 to 4, either endianness and a word of `w`
bytes at the front of the buffer, the decoded sample is at least
`-2 ^ (8 * w - 1)` and at most `2 ^ (8 * w - 1) - 1`. -/
theorem decoded_sample_range (w : Nat) (word tail : List Byte) (e : Bool)
    (hw : 1 ≤ w ∧ w ≤ 4) (hlen : word.length = w) :
    -(2 : Int) ^ (8 * w - 1) ≤ decodeBuffer (word ++ tail) w e ∧
      decodeBuffer (word ++ tail) w e ≤ (2 : Int) ^ (8 * w - 1) - 1 := by
  rw [decodeBuffer_append word tail w e hw hlen]
  have key : ∀ wd : List Byte, wd.length = w →
      -(2 : Int) ^ (8 * w - 1) ≤ decodeBuffer wd w true ∧
        decodeBuffer wd w true ≤ (2 : Int) ^ (8 * w - 1) - 1 := by
    intro wd hwd
    rw [decodeBuffer_little wd w hw hwd]
    have hu := unsignedValue_lt wd
    rw [hwd] at hu
    exact twosComplement_range w _ hw hu
  cases e
  · rw [decodeBuffer_big]
    exact key _ (makeLittleEnd_append word [] w hw hlen).2
  · exact key word hlen

theorem decoded_sample_range_witness :
    (1 ≤ 2 ∧ 2 ≤ 4) ∧ ([0x00, 0x80] : List Byte).length = 2 ∧
    (-(2 : Int) ^ (8 * 2 - 1) ≤ decodeBuffer ([0x00, 0x80] ++ [7, 7]) 2 true ∧
      decodeBuffer ([0x00, 0x80] ++ [7, 7]) 2 true ≤ (2 : Int) ^ (8 * 2 - 1) - 1) :=
  ⟨by decide, by decide, decoded_sample_range 2 [0x00, 0x80] [7, 7] true (by decide) (by decide)⟩

/-- C17: under big endianness with a word width `w` from 2 to 4, the loop that
reorders the bytes leaves in the buffer the first `(w + 1) / 2` bytes of the word
followed by the first `w / 2` bytes in reverse order: byte `i` equals byte
`w - 1 - i`, the leading bytes are those of the word, and two words that agree
on their first `(w + 1) / 2` bytes decode to the same sample. -/
theorem big_endian_palindrome (w : Nat) (word₁ word₂ tail₁ tail₂ : List Byte)
    (hw : 2 ≤ w ∧ w ≤ 4) (h₁ : word₁.length = w) (h₂ : word₂.length = w)
    (hagree : word₁.take ((w + 1) / 2) = word₂.take ((w + 1) / 2)) :
    makeLittleEnd word₁ w = word₁.take ((w + 1) / 2) ++ (word₁.take (w / 2)).reverse ∧
      (∀ i, i < w → (makeLittleEnd word₁ w)[i]? = (makeLittleEnd word₁ w)[w - 1 - i]?) ∧
      (∀ i, i < (w + 1) / 2 → (makeLittleEnd word₁ w)[i]? = word₁[i]?) ∧
      decodeBuffer (word₁ ++ tail₁) w false = decodeBuffer (word₂ ++ tail₂) w false := by
  obtain ⟨h2, h4⟩ := hw
  have hw' : 1 ≤ w ∧ w ≤ 4 := ⟨by omega, h4⟩
  have e₁ := makeLittleEnd_eq word₁ w hw' h₁
  have e₂ := makeLittleEnd_eq word₂ w hw' h₂
  have hhalf : word₁.take (w / 2) = word₂.take (w / 2) := by
    have := congrArg (List.take (w / 2)) hagree
    rwa [List.take_take, List.take_take, Nat.min_eq_left (by omega)] at this
  refine ⟨e₁, ?_, ?_, ?_⟩
  · intro i hi
    rcases word_cases word₁ w hw'.1 h4 h₁ with
      ⟨rfl, a, rfl⟩ | ⟨rfl, a, b, rfl⟩ | ⟨rfl, a, b, c, rfl⟩ | ⟨rfl, a, b, c, d, rfl⟩ <;>
    interval_cases i <;> simp [makeLittleEnd, List.range_succ]
  · intro i hi
    rcases word_cases word₁ w hw'.1 h4 h₁ with
      ⟨rfl, a, rfl⟩ | ⟨rfl, a, b, rfl⟩ | ⟨rfl, a, b, c, rfl⟩ | ⟨rfl, a, b, c, d, rfl⟩ <;>
    interval_cases i <;> simp [makeLittleEnd, List.range_succ]
  · rw [decodeBuffer_append word₁ tail₁ w false hw' h₁,
      decodeBuffer_append word₂ tail₂ w false hw' h₂, decodeBuffer_big, decodeBuffer_big,
      e₁, e₂, hagree, hhalf]

theorem big_endian_palindrome_witness :
    (2 ≤ 3 ∧ 3 ≤ 4) ∧ ([1, 2, 3] : List Byte).length = 3 ∧ ([1, 2, 9] : List Byte).length = 3 ∧
    ([1, 2, 3] : List Byte).take ((3 + 1) / 2) = ([1, 2, 9] : List Byte).take ((3 + 1) / 2) ∧
    makeLittleEnd [1, 2, 3] 3 = [1, 2, 1] ∧
    decodeBuffer ([1, 2, 3] ++ [0]) 3 false = decodeBuffer ([1, 2, 9] ++ [5]) 3 false := by
  have h := big_endian_palindrome 3 [1, 2, 3] [1, 2, 9] [0] [5] (by decide) (by decide)
    (by decide) (by decide)
  exact ⟨by decide, by decide, by decide, by decide, h.1, h.2.2.2⟩

/-- C18 (evaluation of the code): for the input path `./in.pcm` the token of
`strtok` is `/in`, 8 bytes are allocated and the 9 bytes of `./in.csv` with its
terminator are written; for `../dir/in.pcm` 12 bytes are allocated and 14
written; for the path `...` the token is NULL. For `in.pcm` the 7 bytes
allocated are the 7 written. In general the text written is longer than the
allocation by the number of `.` the input path starts with. -/
theorem derived_name_overrun :
    deriveOutputName "./in.pcm" = some (8, "./in", "./in.csv") ∧
    ("./in.csv" : String).length + 1 = 9 ∧
    (main (fileEnv "./in.pcm" [0x00, 0x01]) ["pcm_file_convert", "./in.pcm"]).nameOverrun = true ∧
    deriveOutputName "../dir/in.pcm" = some (12, "../dir/in", "../dir/in.csv") ∧
    ("../dir/in.csv" : String).length + 1 = 14 ∧
    deriveOutputName "..." = none ∧
    (main (fileEnv "..." [0x00, 0x01]) ["pcm_file_convert", "..."]).exit = Exit.fault ∧
    deriveOutputName "in.pcm" = some (7, "in", "in.csv") ∧
    ("in.csv" : String).length + 1 = 7 ∧
    (∀ (pInputFileName : String) (size : Nat) (truncated name : String),
      deriveOutputName pInputFileName = some (size, truncated, name) →
      name.length + 1 = size +
        (pInputFileName.toList.takeWhile (fun c => EXT_SEPARATOR.contains c)).length) := by
  refine ⟨by decide, by decide, by decide, by decide, by decide, by decide, by decide,
    by decide, by decide, deriveOutputName_size⟩

/-- C19: the decimal rendering of a 32-bit signed integer `v` (every decoded
sample is one) has from 1 to 11 characters, so that it fits, with its
terminator, in the 32 bytes of `buf`; it is `0` for zero, starts with a digit
other than `0` for a positive `v`, and with `-` followed by a digit other than
`0` for a negative `v`; it starts with `-` exactly when `v` is negative. -/
theorem rendering_shape (v : Int) (hv : -(2 : Int) ^ 31 ≤ v ∧ v < (2 : Int) ^ 31) :
    (1 ≤ (sprintf_d v).length ∧ (sprintf_d v).length ≤ 11 ∧ (sprintf_d v).length + 1 ≤ 32) ∧
    (v = 0 → sprintf_d v = ['0']) ∧
    (0 < v → ∃ c rest, sprintf_d v = c :: rest ∧ c ≠ '0' ∧ c.isDigit = true) ∧
    (v < 0 → ∃ c rest, sprintf_d v = '-' :: c :: rest ∧ c ≠ '0' ∧ c.isDigit = true) ∧
    ((sprintf_d v).head? = some '-' ↔ v < 0) ∧
    (∀ u, -(2 : Int) ^ 31 ≤ toInt u ∧ toInt u < (2 : Int) ^ 31) := by
  obtain ⟨hlo, hhi⟩ := hv
  have habs : v.natAbs < 10 ^ 10 := by
    have : v.natAbs ≤ 2147483648 := by omega
    exact Nat.lt_of_le_of_lt this (by norm_num)
  have hlen := decimalDigits_length (v.natAbs + 1) v.natAbs [] 10 (by decide) habs
  obtain ⟨d0, hd0, rest0, hr0⟩ :=
    decimalDigits_head (v.natAbs + 1) v.natAbs [] (Or.inl (by omega))
  have hlead : v ≠ 0 → ∃ d, 1 ≤ d ∧ d < 10 ∧ ∃ rest,
      decimalDigits (v.natAbs + 1) v.natAbs [] = digitChar d :: rest := fun hne =>
    decimalDigits_leading (v.natAbs + 1) v.natAbs [] (by omega) (natAbs_lt_pow _)
  simp only [List.length_nil, Nat.add_zero] at hlen
  refine ⟨?_, ?_, ?_, ?_, ?_, toInt_range⟩
  · unfold sprintf_d
    split_ifs
    · simp only [List.length_cons]; omega
    · rw [hr0] at hlen ⊢
      simp only [List.length_cons] at hlen ⊢
      omega
  · intro h0
    subst h0
    decide
  · intro hpos
    obtain ⟨d, hd1, hd, rest, hr⟩ := hlead (by omega)
    have hc := digitChar_leading d hd1 hd
    refine ⟨digitChar d, rest, ?_, hc.1, hc.2.2⟩
    unfold sprintf_d
    rw [if_neg (by omega), hr]
  · intro hneg
    obtain ⟨d, hd1, hd, rest, hr⟩ := hlead (by omega)
    have hc := digitChar_leading d hd1 hd
    refine ⟨digitChar d, rest, ?_, hc.1, hc.2.2⟩
    unfold sprintf_d
    rw [if_pos hneg, hr]
  · unfold sprintf_d
    split_ifs with hneg
    · simp [hneg]
    · rw [hr0]
      have := (digitChar_value d0 hd0).2
      simp [this, hneg]

theorem rendering_shape_witness :
    (-(2 : Int) ^ 31 ≤ -2147483648 ∧ (-2147483648 : Int) < (2 : Int) ^ 31) ∧
    (sprintf_d (-2147483648)).length ≤ 11 ∧
    sprintf_d (-2147483648) = "-2147483648".toList := by
  have h := rendering_shape (-2147483648) (by decide)
  exact ⟨by decide, h.1.2.1, by decide⟩

end PcmFileConvert
